import Mathlib

/-!
# A verification development for the pysimsearch indexing/scoring core

This file gives a shallow embedding in Lean 4 of the parts of pysimsearch
that the checked properties are about:

* `term_vec.py` — term-vector construction (`term_vec`, `l2_norm`);
* `sim_index/map_sim_index.py` — the leaf inverted index (`MapSimIndex`):
  `index_files` (per-document body `index_doc`), `_add_vec`, `del_docids`
  (per-docid body `del_docid?`), `get_doc_freq`, `postings_list`;
* `query_scorer.py` — `SimpleCountQueryScorer.score_docs` and
  `TFIDFQueryScorer.score_docs`;
* `sim_index/sim_index_collection.py` — the sharded collection
  (`SimIndexCollection`): the `update_trigger` decorator, `index_files`,
  `index_string_buffers`, `del_docids`, `set_shard_func`,
  `update_node_stats`, `broadcast_node_stats`;
* `sim_index/concurrent_sim_index.py` — the `ConcurrentSimIndex` method
  dispatch (`__getattr__` against `READ_METHODS` / `WRITE_METHODS` /
  `NONBLOCKING_METHODS`).

Modelling conventions:

* Python `dict`s are embedded as association lists (`List (κ × ν)`) with
  unique keys, looked up with `alookup`, assigned with `aset` (replace in
  place, else append — matching insertion-ordered CPython dicts) and
  deleted from with `adel`.
* Python `int` is `Int` where a value can be decremented below zero
  (`_N`, document frequencies) and `Nat` where it cannot (docids, term
  frequencies).
* Fallible Python code (dict subscript raising `KeyError`, `assert`,
  division by zero, `int()` parsing) is embedded in `Except String` /
  `Option`, with the error value standing for the raised exception.
* `math.sqrt` is not computable over `ℝ`; the embedding stores the
  *squared* L2 norm in `doc_len_map` (the source stores
  `math.sqrt` of exactly this number, and `Real.sqrt` is injective on
  nonnegative reals, so the squared form carries the same information).
-/

namespace Pysimsearch

/-! ## Association lists standing for Python dicts -/

/-- Lookup in an association list: the value of the first pair whose key
matches, like a Python dict lookup (`m.get(k)`). -/
def alookup {κ ν : Type _} [DecidableEq κ] : List (κ × ν) → κ → Option ν
  | [], _ => none
  | p :: ps, k => if p.1 = k then some p.2 else alookup ps k

/-- Dict assignment `m[k] = v`: replace the value in place if the key is
present (keeping its position, as CPython dicts do), else append. -/
def aset {κ ν : Type _} [DecidableEq κ] : List (κ × ν) → κ → ν → List (κ × ν)
  | [], k, v => [(k, v)]
  | p :: ps, k, v => if p.1 = k then (k, v) :: ps else p :: aset ps k v

/-- Dict deletion `del m[k]` (no-op when the key is absent; callers that
must raise `KeyError` test `alookup` first). -/
def adel {κ ν : Type _} [DecidableEq κ] : List (κ × ν) → κ → List (κ × ν)
  | [], _ => []
  | p :: ps, k => if p.1 = k then adel ps k else p :: adel ps k

/-- The keys of an association list. -/
def akeys {κ ν : Type _} (m : List (κ × ν)) : List κ := m.map Prod.fst

section ALemmas

set_option linter.unusedSectionVars false

variable {κ ν : Type _} [DecidableEq κ]

@[simp] theorem alookup_nil (k : κ) : alookup ([] : List (κ × ν)) k = none := rfl

theorem alookup_cons (p : κ × ν) (ps : List (κ × ν)) (k : κ) :
    alookup (p :: ps) k = if p.1 = k then some p.2 else alookup ps k := rfl

@[simp] theorem akeys_nil : akeys ([] : List (κ × ν)) = [] := rfl

theorem akeys_cons (p : κ × ν) (ps : List (κ × ν)) :
    akeys (p :: ps) = p.1 :: akeys ps := rfl

@[simp] theorem alookup_aset_self (m : List (κ × ν)) (k : κ) (v : ν) :
    alookup (aset m k v) k = some v := by
  induction m with
  | nil => simp [aset, alookup]
  | cons p ps ih =>
    by_cases h : p.1 = k
    · simp [aset, h, alookup]
    · simp [aset, h, alookup_cons, ih]

theorem alookup_aset_ne (m : List (κ × ν)) (k k' : κ) (v : ν) (h : k ≠ k') :
    alookup (aset m k v) k' = alookup m k' := by
  induction m with
  | nil => simp [aset, alookup, h]
  | cons p ps ih =>
    by_cases hp : p.1 = k
    · simp [aset, hp, alookup_cons, h]
    · simp [aset, hp, alookup_cons, ih]

@[simp] theorem alookup_adel_self (m : List (κ × ν)) (k : κ) :
    alookup (adel m k) k = none := by
  induction m with
  | nil => rfl
  | cons p ps ih =>
    by_cases hp : p.1 = k
    · simpa [adel, hp] using ih
    · simpa [adel, hp, alookup_cons] using ih

theorem alookup_adel_ne (m : List (κ × ν)) (k k' : κ) (h : k' ≠ k) :
    alookup (adel m k) k' = alookup m k' := by
  induction m with
  | nil => rfl
  | cons p ps ih =>
    by_cases hp : p.1 = k
    · have hpk' : p.1 ≠ k' := fun hh => h (hh ▸ hp)
      rw [show adel (p :: ps) k = adel ps k by simp [adel, hp],
          alookup_cons, if_neg hpk']
      exact ih
    · simp [adel, hp, alookup_cons, ih]

theorem alookup_isSome_iff_mem_akeys (m : List (κ × ν)) (k : κ) :
    (alookup m k).isSome ↔ k ∈ akeys m := by
  induction m with
  | nil => simp
  | cons p ps ih =>
    by_cases hp : p.1 = k
    · simp [alookup_cons, hp, akeys_cons]
    · have : ¬ k = p.1 := fun hh => hp hh.symm
      simp [alookup_cons, hp, akeys_cons, this, ih]

theorem alookup_eq_none_iff_not_mem_akeys (m : List (κ × ν)) (k : κ) :
    alookup m k = none ↔ k ∉ akeys m := by
  rw [← alookup_isSome_iff_mem_akeys]
  cases alookup m k <;> simp

theorem mem_of_alookup_eq_some {m : List (κ × ν)} {k : κ} {v : ν}
    (h : alookup m k = some v) : (k, v) ∈ m := by
  induction m with
  | nil => simp [alookup] at h
  | cons p ps ih =>
    by_cases hp : p.1 = k
    · simp [alookup_cons, hp] at h
      have hpv : p = (k, v) := by cases p; simp_all
      rw [← hpv]
      exact List.mem_cons_self _ _
    · simp [alookup_cons, hp] at h
      exact List.mem_cons_of_mem _ (ih h)

theorem alookup_eq_some_of_mem {m : List (κ × ν)} {k : κ} {v : ν}
    (hnd : (akeys m).Nodup) (h : (k, v) ∈ m) : alookup m k = some v := by
  induction m with
  | nil => simp at h
  | cons p ps ih =>
    rw [akeys_cons, List.nodup_cons] at hnd
    rcases List.mem_cons.mp h with h | h
    · simp [alookup_cons, ← h]
    · have hk : p.1 ≠ k := by
        intro hpk
        exact hnd.1 (hpk ▸ (List.mem_map_of_mem Prod.fst h))
      simp [alookup_cons, hk]
      exact ih hnd.2 h

theorem akeys_aset (m : List (κ × ν)) (k : κ) (v : ν) :
    akeys (aset m k v) = if k ∈ akeys m then akeys m else akeys m ++ [k] := by
  induction m with
  | nil => simp [aset, akeys]
  | cons p ps ih =>
    by_cases hp : p.1 = k
    · subst hp
      simp [aset, akeys_cons]
    · have hkp : ¬ k = p.1 := fun hh => hp hh.symm
      simp only [aset, if_neg hp, akeys_cons, ih]
      by_cases hm : k ∈ akeys ps <;> simp [hm, hkp]

theorem nodup_akeys_aset (m : List (κ × ν)) (k : κ) (v : ν)
    (h : (akeys m).Nodup) : (akeys (aset m k v)).Nodup := by
  rw [akeys_aset]
  split
  · exact h
  · next hk => simpa [List.nodup_append] using ⟨h, hk⟩

theorem length_aset_mem (m : List (κ × ν)) (k : κ) (v : ν) (h : k ∈ akeys m) :
    (aset m k v).length = m.length := by
  induction m with
  | nil => simp at h
  | cons p ps ih =>
    by_cases hp : p.1 = k
    · simp [aset, hp]
    · have : k ∈ akeys ps := by
        rw [akeys_cons] at h
        rcases List.mem_cons.mp h with h | h
        · exact absurd h.symm hp
        · exact h
      simp [aset, hp, ih this]

theorem length_aset_not_mem (m : List (κ × ν)) (k : κ) (v : ν) (h : k ∉ akeys m) :
    (aset m k v).length = m.length + 1 := by
  induction m with
  | nil => simp [aset]
  | cons p ps ih =>
    rw [akeys_cons] at h
    have hp : p.1 ≠ k := fun hh => h (hh ▸ List.mem_cons_self _ _)
    have : k ∉ akeys ps := fun hh => h (List.mem_cons_of_mem _ hh)
    simp [aset, hp, ih this]

theorem adel_eq_self_of_not_mem (m : List (κ × ν)) (k : κ) (h : k ∉ akeys m) :
    adel m k = m := by
  induction m with
  | nil => rfl
  | cons p ps ih =>
    rw [akeys_cons] at h
    have hp : p.1 ≠ k := fun hh => h (hh ▸ List.mem_cons_self _ _)
    have : k ∉ akeys ps := fun hh => h (List.mem_cons_of_mem _ hh)
    simp [adel, hp, ih this]

theorem length_adel_mem (m : List (κ × ν)) (k : κ)
    (hnd : (akeys m).Nodup) (h : k ∈ akeys m) :
    (adel m k).length = m.length - 1 := by
  induction m with
  | nil => simp at h
  | cons p ps ih =>
    rw [akeys_cons, List.nodup_cons] at hnd
    by_cases hp : p.1 = k
    · have hnm : k ∉ akeys ps := hp ▸ hnd.1
      simp [adel, hp, adel_eq_self_of_not_mem ps k hnm]
    · have hk : k ∈ akeys ps := by
        rw [akeys_cons] at h
        rcases List.mem_cons.mp h with h | h
        · exact absurd h.symm hp
        · exact h
      have hlen : 1 ≤ ps.length := by
        rcases List.mem_map.mp hk with ⟨q, hq, _⟩
        exact List.length_pos.mpr (fun hnil => by simp [hnil] at hq)
      simp [adel, hp, ih hnd.2 hk]
      omega

theorem akeys_adel (m : List (κ × ν)) (k : κ) :
    akeys (adel m k) = (akeys m).filter (fun x => decide (x ≠ k)) := by
  induction m with
  | nil => rfl
  | cons p ps ih =>
    by_cases hp : p.1 = k <;> simp [adel, hp, akeys_cons, ih]

theorem nodup_akeys_adel (m : List (κ × ν)) (k : κ)
    (h : (akeys m).Nodup) : (akeys (adel m k)).Nodup := by
  rw [akeys_adel]
  exact h.filter _

theorem mem_adel {m : List (κ × ν)} {k : κ} {p : κ × ν} :
    p ∈ adel m k ↔ p ∈ m ∧ p.1 ≠ k := by
  induction m with
  | nil => simp [adel]
  | cons q qs ih =>
    by_cases hq : q.1 = k
    · rw [show adel (q :: qs) k = adel qs k by simp [adel, hq], ih]
      constructor
      · rintro ⟨h1, h2⟩
        exact ⟨List.mem_cons_of_mem _ h1, h2⟩
      · rintro ⟨h1, h2⟩
        rcases List.mem_cons.mp h1 with h | h
        · exact absurd (by rw [h]; exact hq) h2
        · exact ⟨h, h2⟩
    · rw [show adel (q :: qs) k = q :: adel qs k by simp [adel, hq]]
      constructor
      · intro h
        rcases List.mem_cons.mp h with h | h
        · exact ⟨h ▸ List.mem_cons_self _ _, h ▸ hq⟩
        · have := ih.mp h
          exact ⟨List.mem_cons_of_mem _ this.1, this.2⟩
      · rintro ⟨h1, h2⟩
        rcases List.mem_cons.mp h1 with h | h
        · exact h ▸ List.mem_cons_self _ _
        · exact List.mem_cons_of_mem _ (ih.mpr ⟨h, h2⟩)

theorem mem_of_mem_aset_ne {m : List (κ × ν)} {k : κ} {v : ν} {p : κ × ν}
    (h : p ∈ aset m k v) (hne : p.1 ≠ k) : p ∈ m := by
  induction m with
  | nil =>
    simp [aset] at h
    exact absurd (by rw [h]) hne
  | cons q qs ih =>
    by_cases hq : q.1 = k
    · simp [aset, hq] at h
      rcases h with h | h
      · exact absurd (by rw [h]) hne
      · exact List.mem_cons_of_mem _ h
    · simp only [aset, if_neg hq] at h
      rcases List.mem_cons.mp h with h | h
      · exact h ▸ List.mem_cons_self _ _
      · exact List.mem_cons_of_mem _ (ih h)

end ALemmas

/-! ## `term_vec.py` -/

/-- Helper for `py_split`: scan the characters, `acc` holding the
(reversed) current token. Structural recursion keeps every definition
kernel-reducible on concrete inputs. -/
def split_tokens : List Char → List Char → List String
  | [], acc => if acc.isEmpty then [] else [String.mk acc.reverse]
  | c :: cs, acc =>
    if c.isWhitespace then
      (if acc.isEmpty then [] else [String.mk acc.reverse]) ++ split_tokens cs []
    else split_tokens cs (c :: acc)

/-- Python `line.split()`: maximal non-whitespace runs (empty fragments
between adjacent separators are discarded). -/
def py_split (line : String) : List String := split_tokens line.data []

/-- Python `str.lower()`, character-wise case folding. -/
def py_lower (s : String) : String := String.mk (s.data.map Char.toLower)

/-- The body of the token loop of `term_vec.term_vec`:

    if term not in stoplist:
        if lowercase: term = term.lower()
        if term not in tf_dict: tf_dict[term] = 0
        tf_dict[term] += 1
-/
def term_vec_step (stoplist : List String) (lowercase : Bool)
    (tf_dict : List (String × Nat)) (term : String) : List (String × Nat) :=
  if term ∈ stoplist then tf_dict
  else
    let term := if lowercase then py_lower term else term
    aset tf_dict term ((alookup tf_dict term).getD 0 + 1)

/-- `term_vec.term_vec` on a stream of lines (the file branch of the
source; the string branch wraps the string into such a stream). A missing
stoplist is the empty list. -/
def term_vec (input : List String) (stoplist : List String) (lowercase : Bool) :
    List (String × Nat) :=
  input.foldl (fun d line => (py_split line).foldl (term_vec_step stoplist lowercase) d) []

/-- Σ f² over a term vector: the number whose `math.sqrt` the source's
`term_vec.l2_norm` returns. -/
def l2_norm_sq (v : List (String × Nat)) : Nat :=
  (v.map (fun p => p.2 * p.2)).sum

/-- The canonical form of a term under the `lowercase` policy. -/
def canon_term (lowercase : Bool) (t : String) : String :=
  if lowercase then py_lower t else t

/-- All whitespace tokens of a line stream, in order. -/
def stream_tokens (input : List String) : List String :=
  (input.map py_split).flatten

/-- The tokens that survive the stoplist filter (applied to the *raw*
token), already case-folded. -/
def kept_tokens (stoplist : List String) (lowercase : Bool)
    (input : List String) : List String :=
  ((stream_tokens input).filter (fun t => t ∉ stoplist)).map (canon_term lowercase)

/-! ### Case folding is idempotent -/

theorem toNat_ofNat_of_isValidChar {n : Nat} (h : n.isValidChar) :
    (Char.ofNat n).toNat = n := by
  rw [Char.ofNat, dif_pos h]
  rfl

theorem char_toLower_toLower (c : Char) : c.toLower.toLower = c.toLower := by
  have key : ∀ d : Char,
      Char.toLower d = if d.toNat ≥ 65 ∧ d.toNat ≤ 90 then Char.ofNat (d.toNat + 32) else d :=
    fun _ => rfl
  by_cases h : c.toNat ≥ 65 ∧ c.toNat ≤ 90
  · have hv : (c.toNat + 32).isValidChar := Or.inl (by omega)
    have h1 : c.toLower = Char.ofNat (c.toNat + 32) := by rw [key, if_pos h]
    have h2 : c.toLower.toNat = c.toNat + 32 := by
      rw [h1, toNat_ofNat_of_isValidChar hv]
    rw [key c.toLower, if_neg (by rw [h2]; omega)]
  · have h1 : c.toLower = c := by rw [key, if_neg h]
    simp only [h1]

theorem py_lower_py_lower (s : String) : py_lower (py_lower s) = py_lower s := by
  show String.mk ((s.data.map Char.toLower).map Char.toLower)
    = String.mk (s.data.map Char.toLower)
  rw [List.map_map]
  exact congrArg String.mk (List.map_congr_left (fun c _ => char_toLower_toLower c))

theorem canon_term_canon_term (lc : Bool) (t : String) :
    canon_term lc (canon_term lc t) = canon_term lc t := by
  cases lc <;> simp [canon_term, py_lower_py_lower]

/-! ### Counting characterisation of `term_vec` -/

theorem getD_alookup_aset (m : List (String × Nat)) (k t : String) (v : Nat) :
    (alookup (aset m k v) t).getD 0 = if k = t then v else (alookup m t).getD 0 := by
  by_cases h : k = t
  · subst h; simp
  · rw [alookup_aset_ne m k t v h, if_neg h]

theorem foldl_term_vec_step_count (stoplist : List String) (lowercase : Bool)
    (toks : List String) (d : List (String × Nat)) (t : String) :
    (alookup (toks.foldl (term_vec_step stoplist lowercase) d) t).getD 0
      = (alookup d t).getD 0
        + ((toks.filter (fun x => x ∉ stoplist)).map (canon_term lowercase)).count t := by
  induction toks generalizing d with
  | nil => simp
  | cons tok toks ih =>
    rw [List.foldl_cons, ih]
    by_cases hs : tok ∈ stoplist
    · simp [term_vec_step, hs]
    · rw [show term_vec_step stoplist lowercase d tok
            = aset d (canon_term lowercase tok)
                ((alookup d (canon_term lowercase tok)).getD 0 + 1) by
          simp [term_vec_step, hs, canon_term]]
      rw [getD_alookup_aset]
      by_cases hc : canon_term lowercase tok = t
      · simp [hs, hc, List.count_cons]
        omega
      · simp [hs, hc, List.count_cons]

/-- The frequency `term_vec` assigns to a term `t` is the number of
surviving, case-folded tokens equal to `t`. -/
theorem term_vec_count (input stoplist : List String) (lowercase : Bool) (t : String) :
    (alookup (term_vec input stoplist lowercase) t).getD 0
      = (kept_tokens stoplist lowercase input).count t := by
  rw [term_vec, kept_tokens, stream_tokens]
  induction input using List.reverseRecOn with
  | nil => simp
  | append_singleton init line ih =>
    rw [List.foldl_append, List.foldl_cons, List.foldl_nil,
        foldl_term_vec_step_count, ih]
    simp [List.filter_append, List.count_append]

/-! ### Structural facts about `term_vec` output (used by the leaf
index invariant) -/

theorem mem_aset_elim {κ ν : Type _} [DecidableEq κ] {m : List (κ × ν)} {k : κ} {v : ν}
    {p : κ × ν} (h : p ∈ aset m k v) : p = (k, v) ∨ p ∈ m := by
  induction m with
  | nil => simp [aset] at h; exact Or.inl h
  | cons q qs ih =>
    by_cases hq : q.1 = k
    · simp [aset, hq] at h
      rcases h with h | h
      · exact Or.inl h
      · exact Or.inr (List.mem_cons_of_mem _ h)
    · simp only [aset, if_neg hq] at h
      rcases List.mem_cons.mp h with h | h
      · exact Or.inr (h ▸ List.mem_cons_self _ _)
      · rcases ih h with h | h
        · exact Or.inl h
        · exact Or.inr (List.mem_cons_of_mem _ h)

/-- Invariant of the token loop: unique keys, positive counts, and keys
already in canonical form. -/
def tf_dict_wf (lowercase : Bool) (d : List (String × Nat)) : Prop :=
  (akeys d).Nodup ∧ ∀ p ∈ d, 1 ≤ p.2 ∧ canon_term lowercase p.1 = p.1

theorem tf_dict_wf_step (stoplist : List String) (lowercase : Bool)
    (d : List (String × Nat)) (tok : String) (h : tf_dict_wf lowercase d) :
    tf_dict_wf lowercase (term_vec_step stoplist lowercase d tok) := by
  by_cases hs : tok ∈ stoplist
  · simpa [term_vec_step, hs] using h
  · rw [show term_vec_step stoplist lowercase d tok
          = aset d (canon_term lowercase tok)
              ((alookup d (canon_term lowercase tok)).getD 0 + 1) by
        simp [term_vec_step, hs, canon_term]]
    refine ⟨nodup_akeys_aset _ _ _ h.1, ?_⟩
    intro p hp
    rcases mem_aset_elim hp with hp | hp
    · subst hp
      exact ⟨by omega, canon_term_canon_term lowercase tok⟩
    · exact h.2 p hp

theorem tf_dict_wf_foldl (stoplist : List String) (lowercase : Bool)
    (toks : List String) (d : List (String × Nat)) (h : tf_dict_wf lowercase d) :
    tf_dict_wf lowercase (toks.foldl (term_vec_step stoplist lowercase) d) := by
  induction toks generalizing d with
  | nil => exact h
  | cons tok toks ih =>
    exact ih _ (tf_dict_wf_step stoplist lowercase d tok h)

/-- The output of `term_vec` has unique keys, positive frequencies, and
canonical keys. -/
theorem term_vec_wf (input stoplist : List String) (lowercase : Bool) :
    tf_dict_wf lowercase (term_vec input stoplist lowercase) := by
  rw [term_vec]
  induction input using List.reverseRecOn with
  | nil => exact ⟨List.nodup_nil, by simp⟩
  | append_singleton init line ih =>
    rw [List.foldl_append, List.foldl_cons, List.foldl_nil]
    exact tf_dict_wf_foldl _ _ _ _ ih

/-! ## `sim_index/map_sim_index.py` — the leaf index

The mutable attributes of `MapSimIndex` (plus the two config keys it
reads, and `_N` / `_global_N` / `_next_docid` inherited from `SimIndex`).
A "file" is a stream of text lines, embedded as `List String`. -/

structure MapSimIndex where
  name_to_docid_map : List (String × Nat)
  docid_to_name_map : List (Nat × String)
  docid_to_feature_map : List (Nat × Unit)
  term_index : List (String × List (Nat × Nat))
  doc_vectors : List (Nat × List (String × Nat))
  df_map : List (String × Int)
  /-- Stores `l2_norm_sq` of each doc vector; the source stores
  `math.sqrt` of exactly this number. -/
  doc_len_map : List (Nat × Nat)
  global_df_map : Option (List (String × Int))
  global_N : Option Int
  N : Int
  next_docid : Nat
  lowercase : Bool
  stoplist : List String

/-- `MemorySimIndex()`: every map empty, `_N = 0`, `_next_docid = 0`,
no global overrides. The source's config defaults are
`lowercase = True`, `stoplist = {}`. -/
def init_index (lowercase : Bool) (stoplist : List String) : MapSimIndex where
  name_to_docid_map := []
  docid_to_name_map := []
  docid_to_feature_map := []
  term_index := []
  doc_vectors := []
  df_map := []
  doc_len_map := []
  global_df_map := none
  global_N := none
  N := 0
  next_docid := 0
  lowercase := lowercase
  stoplist := stoplist

namespace MapSimIndex

/-- `MapSimIndex.postings_list`: canonicalise the term under the
`lowercase` policy, then look it up; absent terms give `[]`. -/
def postings_list (s : MapSimIndex) (term : String) : List (Nat × Nat) :=
  let term := if s.lowercase then py_lower term else term
  (alookup s.term_index term).getD []

/-- `MapSimIndex._add_vec`: for each `(term, freq)` of the vector,
`self._term_index[term] = self.postings_list(term) + [(docid, freq)]`
(the batched dictionary of the source holds exactly one posting per term
because term-vector keys are unique). Note the asymmetry of the source:
the *read* goes through `postings_list` (which case-folds), the *write*
uses the raw term. -/
def add_vec (s : MapSimIndex) (docid : Nat) (t_vec : List (String × Nat)) :
    MapSimIndex :=
  let ti := t_vec.foldl
    (fun ti p => aset ti p.1
      ((alookup ti (canon_term s.lowercase p.1)).getD [] ++ [(docid, p.2)]))
    s.term_index
  { s with term_index := ti }

/-- The `_df_map` update loop of `MapSimIndex.index_files`:

    for term in t_vec:
        if term not in self._df_map: self._df_map[term] = 0
        self._df_map[term] += 1
-/
def df_bump (df : List (String × Int)) (t_vec : List (String × Nat)) :
    List (String × Int) :=
  t_vec.foldl (fun df p => aset df p.1 ((alookup df p.1).getD 0 + 1)) df

/-- One iteration of the `MapSimIndex.index_files` loop: index a single
`(name, file)` pair. -/
def index_doc (s : MapSimIndex) (name : String) (file : List String) :
    MapSimIndex :=
  let t_vec := term_vec file s.stoplist s.lowercase
  let docid := s.next_docid
  let s1 := { s with
    name_to_docid_map := aset s.name_to_docid_map name docid
    docid_to_name_map := aset s.docid_to_name_map docid name
    df_map := df_bump s.df_map t_vec }
  let s2 := add_vec s1 docid t_vec
  { s2 with
    doc_len_map := aset s2.doc_len_map docid (l2_norm_sq t_vec)
    doc_vectors := aset s2.doc_vectors docid t_vec
    N := s2.N + 1
    next_docid := docid + 1 }

/-- `MapSimIndex.index_files` over a list of named files. -/
def index_files (s : MapSimIndex) (named_files : List (String × List String)) :
    MapSimIndex :=
  named_files.foldl (fun s p => index_doc s p.1 p.2) s

/-- The per-term body of the `MapSimIndex.del_docids` loop, acting on
the pair `(df_map, term_index)`:

    self._df_map[term] -= 1                  -- KeyError if absent
    self._term_index[term] = [e for e in self._term_index.get(term, [])
                              if e[0] != docid]
    if len(self._term_index[term]) == 0:
        del self._term_index[term]
-/
def del_step (docid : Nat)
    (dfti : List (String × Int) × List (String × List (Nat × Nat))) (p : String × Nat) :
    Except String (List (String × Int) × List (String × List (Nat × Nat))) :=
  match alookup dfti.1 p.1 with
  | none => Except.error "KeyError: df_map[term]"
  | some old =>
    let df := aset dfti.1 p.1 (old - 1)
    let pl := ((alookup dfti.2 p.1).getD []).filter (fun e => e.1 ≠ docid)
    let ti := if pl.length = 0 then adel dfti.2 p.1 else aset dfti.2 p.1 pl
    Except.ok (df, ti)

/-- One iteration of the `MapSimIndex.del_docids` loop. Fallible: for a
docid that is not live, the very first access `self._doc_vectors[docid]`
raises `KeyError` (and `self.docid_to_name(docid)` also would); only the
`_del_helper` deletions silently tolerate missing keys (`adel`). -/
def del_docid? (s : MapSimIndex) (docid : Nat) : Except String MapSimIndex :=
  match alookup s.doc_vectors docid with
  | none => Except.error "KeyError: doc_vectors[docid]"
  | some t_vec =>
    match t_vec.foldlM (del_step docid) (s.df_map, s.term_index) with
    | Except.error e => Except.error e
    | Except.ok dfti =>
      match alookup s.docid_to_name_map docid with
      | none => Except.error "KeyError: docid_to_name_map[docid]"
      | some name =>
        Except.ok { s with
          df_map := dfti.1
          term_index := dfti.2
          docid_to_name_map := adel s.docid_to_name_map docid
          docid_to_feature_map := adel s.docid_to_feature_map docid
          name_to_docid_map := adel s.name_to_docid_map name
          doc_len_map := adel s.doc_len_map docid
          doc_vectors := adel s.doc_vectors docid
          N := s.N - 1 }

/-- `MapSimIndex.del_docids` over a list of docids. -/
def del_docids? (s : MapSimIndex) (docids : List Nat) : Except String MapSimIndex :=
  docids.foldlM del_docid? s

/-- `MapSimIndex.get_doc_freq`:

    df_map = self._global_df_map or self._df_map
    return df_map.get(term, 1)

(a `None` *or empty* global map falls back to the local one — Python
`or` tests truthiness). -/
def get_doc_freq (s : MapSimIndex) (term : String) : Int :=
  let df_map := match s.global_df_map with
    | some g => if g.isEmpty then s.df_map else g
    | none => s.df_map
  (alookup df_map term).getD 1

/-- `MapSimIndex.get_doc_len`, in squared form (see `doc_len_map`). -/
def get_doc_len_sq (s : MapSimIndex) (docid : Nat) : Nat :=
  (alookup s.doc_len_map docid).getD 0

/-- `SimIndex.get_local_N`. -/
def get_local_N (s : MapSimIndex) : Int := s.N

/-- `SimIndex.set_global_N`. -/
def set_global_N (s : MapSimIndex) (n : Int) : MapSimIndex :=
  { s with global_N := some n }

/-- `MapSimIndex.set_global_df_map`. -/
def set_global_df_map (s : MapSimIndex) (df : List (String × Int)) : MapSimIndex :=
  { s with global_df_map := some df }

end MapSimIndex

/-- The leaf index states reachable from a fresh `MemorySimIndex` by a
finite sequence of single-document `index_*` steps with fresh names and
single-docid `del_docids` steps that complete without raising (i.e. on
live docids). -/
inductive Reachable : MapSimIndex → Prop
  | init (lowercase : Bool) (stoplist : List String) :
      Reachable (init_index lowercase stoplist)
  | index_doc {s : MapSimIndex} (name : String) (file : List String)
      (hs : Reachable s) (fresh : alookup s.name_to_docid_map name = none) :
      Reachable (s.index_doc name file)
  | del_docid {s s' : MapSimIndex} (docid : Nat) (hs : Reachable s)
      (hdel : s.del_docid? docid = .ok s') : Reachable s'

/-! ## Characterisations of the index/delete loops -/

theorem df_bump_alookup (t : String) (t_vec : List (String × Nat)) :
    ∀ df : List (String × Int), (akeys t_vec).Nodup →
      alookup (MapSimIndex.df_bump df t_vec) t
        = if t ∈ akeys t_vec then some ((alookup df t).getD 0 + 1) else alookup df t := by
  induction t_vec with
  | nil => intro df _; simp [MapSimIndex.df_bump]
  | cons p tv ih =>
    intro df hnd
    rw [akeys_cons, List.nodup_cons] at hnd
    rw [MapSimIndex.df_bump, List.foldl_cons]
    rw [show List.foldl (fun df p => aset df p.1 ((alookup df p.1).getD 0 + 1))
          (aset df p.1 ((alookup df p.1).getD 0 + 1)) tv
        = MapSimIndex.df_bump (aset df p.1 ((alookup df p.1).getD 0 + 1)) tv from rfl]
    rw [ih _ hnd.2, akeys_cons]
    by_cases hp : t = p.1
    · rw [hp, if_neg hnd.1, if_pos (List.mem_cons_self _ _), alookup_aset_self]
    · rw [alookup_aset_ne df p.1 t _ (fun h => hp h.symm)]
      have hmem : (t ∈ p.1 :: akeys tv) ↔ (t ∈ akeys tv) := by
        simp [List.mem_cons, hp]
      by_cases hm : t ∈ akeys tv
      · rw [if_pos hm, if_pos (hmem.mpr hm)]
      · rw [if_neg hm, if_neg (fun hh => hm (hmem.mp hh))]

theorem add_vec_fold_alookup (lc : Bool) (docid : Nat) (t : String)
    (t_vec : List (String × Nat)) :
    ∀ ti : List (String × List (Nat × Nat)), (akeys t_vec).Nodup →
      (∀ p ∈ t_vec, canon_term lc p.1 = p.1) →
      alookup (t_vec.foldl
          (fun ti p => aset ti p.1
            ((alookup ti (canon_term lc p.1)).getD [] ++ [(docid, p.2)])) ti) t
        = match alookup t_vec t with
          | some f => some ((alookup ti t).getD [] ++ [(docid, f)])
          | none => alookup ti t := by
  induction t_vec with
  | nil => intro ti _ _; simp
  | cons p tv ih =>
    intro ti hnd hcanon
    rw [akeys_cons, List.nodup_cons] at hnd
    rw [List.foldl_cons]
    have hcp : canon_term lc p.1 = p.1 := hcanon p (List.mem_cons_self _ _)
    rw [ih _ hnd.2 (fun q hq => hcanon q (List.mem_cons_of_mem _ hq))]
    by_cases hp : t = p.1
    · rw [hp]
      have hnone : alookup tv p.1 = none :=
        (alookup_eq_none_iff_not_mem_akeys tv p.1).mpr hnd.1
      have hsome : alookup (p :: tv) p.1 = some p.2 := by
        rw [alookup_cons, if_pos rfl]
      simp only [hnone, hsome, hcp, alookup_aset_self]
    · have hne : p.1 ≠ t := fun h => hp h.symm
      have hcons : alookup (p :: tv) t = alookup tv t := by
        rw [alookup_cons, if_neg hne]
      rw [hcons, hcp, alookup_aset_ne ti p.1 t _ hne]

theorem del_fold_ok (docid : Nat) (t_vec : List (String × Nat)) :
    ∀ (df : List (String × Int)) (ti : List (String × List (Nat × Nat))),
      (akeys t_vec).Nodup → (∀ p ∈ t_vec, (alookup df p.1).isSome) →
      ∃ df' ti',
        t_vec.foldlM (MapSimIndex.del_step docid) (df, ti) = .ok (df', ti') ∧
        (∀ t, t ∉ akeys t_vec →
          alookup df' t = alookup df t ∧ alookup ti' t = alookup ti t) ∧
        (∀ t f, (t, f) ∈ t_vec →
          alookup df' t = (alookup df t).map (fun v => v - 1) ∧
          alookup ti' t =
            (if ((((alookup ti t).getD []).filter (fun e => e.1 ≠ docid)).length = 0)
             then none
             else some (((alookup ti t).getD []).filter (fun e => e.1 ≠ docid)))) := by
  induction t_vec with
  | nil =>
    intro df ti _ _
    exact ⟨df, ti, rfl, fun t _ => ⟨rfl, rfl⟩, fun t f h => absurd h (by simp)⟩
  | cons p tv ih =>
    intro df ti hnd hsome
    rw [akeys_cons, List.nodup_cons] at hnd
    obtain ⟨old, hold⟩ := Option.isSome_iff_exists.mp
      (hsome p (List.mem_cons_self _ _))
    obtain ⟨df₁, ti₁, hstep, hdf₁_ne, hdf₁_self, hti₁_ne, hti₁_self⟩ :
        ∃ df₁ ti₁, MapSimIndex.del_step docid (df, ti) p = .ok (df₁, ti₁) ∧
          (∀ t, t ≠ p.1 → alookup df₁ t = alookup df t) ∧
          alookup df₁ p.1 = some (old - 1) ∧
          (∀ t, t ≠ p.1 → alookup ti₁ t = alookup ti t) ∧
          alookup ti₁ p.1 =
            (if ((((alookup ti p.1).getD []).filter (fun e => e.1 ≠ docid)).length = 0)
             then none
             else some (((alookup ti p.1).getD []).filter (fun e => e.1 ≠ docid))) := by
      refine ⟨aset df p.1 (old - 1),
        (if ((((alookup ti p.1).getD []).filter (fun e => e.1 ≠ docid)).length = 0)
         then adel ti p.1
         else aset ti p.1 (((alookup ti p.1).getD []).filter (fun e => e.1 ≠ docid))),
        ?_, ?_, ?_, ?_, ?_⟩
      · simp only [MapSimIndex.del_step, hold]
      · intro t ht
        exact alookup_aset_ne df p.1 t _ (fun h => ht h.symm)
      · exact alookup_aset_self df p.1 (old - 1)
      · intro t ht
        split
        · exact alookup_adel_ne ti p.1 t ht
        · exact alookup_aset_ne ti p.1 t _ (fun h => ht h.symm)
      · by_cases hlen :
          ((((alookup ti p.1).getD []).filter (fun e => e.1 ≠ docid)).length = 0)
        · rw [if_pos hlen, if_pos hlen, alookup_adel_self]
        · rw [if_neg hlen, if_neg hlen, alookup_aset_self]
    have hsome' : ∀ q ∈ tv, (alookup df₁ q.1).isSome := by
      intro q hq
      have hqp : q.1 ≠ p.1 := by
        intro hh
        exact hnd.1 (hh ▸ List.mem_map_of_mem Prod.fst hq)
      rw [hdf₁_ne q.1 hqp]
      exact hsome q (List.mem_cons_of_mem _ hq)
    obtain ⟨df', ti', hfold, hout, hin⟩ := ih df₁ ti₁ hnd.2 hsome'
    refine ⟨df', ti', ?_, ?_, ?_⟩
    · rw [List.foldlM_cons, hstep]
      simpa using hfold
    · intro t ht
      rw [akeys_cons] at ht
      have ht1 : t ≠ p.1 := fun h => ht (h ▸ List.mem_cons_self _ _)
      have ht2 : t ∉ akeys tv := fun h => ht (List.mem_cons_of_mem _ h)
      obtain ⟨h1, h2⟩ := hout t ht2
      exact ⟨h1.trans (hdf₁_ne t ht1), h2.trans (hti₁_ne t ht1)⟩
    · intro t f hmem
      rcases List.mem_cons.mp hmem with hmem | hmem
      · have ht : t = p.1 := congrArg Prod.fst hmem
        obtain ⟨h1, h2⟩ := hout t (by rw [ht]; exact hnd.1)
        constructor
        · rw [h1, ht, hdf₁_self, hold]
          rfl
        · rw [h2, ht, hti₁_self]
      · have ht1 : t ≠ p.1 := by
          intro hh
          exact hnd.1 (hh ▸ List.mem_map_of_mem Prod.fst hmem)
        obtain ⟨h1, h2⟩ := hin t f hmem
        rw [hdf₁_ne t ht1] at h1
        rw [hti₁_ne t ht1] at h2
        exact ⟨h1, h2⟩

/-! ## The leaf-index invariant -/

/-- The maintained state invariant of a leaf `MapSimIndex`: postings and
document vectors mirror each other, `df` counts live postings (with
deleted terms lingering at `0`), `doc_len_map` stores the squared norm of
each live vector, the two name maps are mutually inverse with `N` live
documents, and docids are below `_next_docid`. -/
structure LeafInv (s : MapSimIndex) : Prop where
  nd_nodup : (akeys s.name_to_docid_map).Nodup
  dn_nodup : (akeys s.docid_to_name_map).Nodup
  dv_nodup : (akeys s.doc_vectors).Nodup
  maps_inverse : ∀ n d, alookup s.name_to_docid_map n = some d ↔
      alookup s.docid_to_name_map d = some n
  nd_len : s.name_to_docid_map.length = s.docid_to_name_map.length
  N_len : s.N = (s.docid_to_name_map.length : Int)
  dn_dv_dom : ∀ d, (alookup s.docid_to_name_map d).isSome
      ↔ (alookup s.doc_vectors d).isSome
  dv_lt : ∀ d, (alookup s.doc_vectors d).isSome → d < s.next_docid
  dv_wf : ∀ d tv, alookup s.doc_vectors d = some tv → tf_dict_wf s.lowercase tv
  dv_len : ∀ d tv, alookup s.doc_vectors d = some tv →
      alookup s.doc_len_map d = some (l2_norm_sq tv)
  ti_sound : ∀ t pl, alookup s.term_index t = some pl →
      pl ≠ [] ∧ (pl.map Prod.fst).Nodup ∧
      ∀ d f, (d, f) ∈ pl → ∃ tv, alookup s.doc_vectors d = some tv ∧ (t, f) ∈ tv
  ti_complete : ∀ d tv, alookup s.doc_vectors d = some tv →
      ∀ t f, (t, f) ∈ tv → ∃ pl, alookup s.term_index t = some pl ∧ (d, f) ∈ pl
  df_live : ∀ t pl, alookup s.term_index t = some pl →
      alookup s.df_map t = some (pl.length : Int)
  df_stale : ∀ t, alookup s.term_index t = none →
      alookup s.df_map t = none ∨ alookup s.df_map t = some 0
  global_df_none : s.global_df_map = none
  global_N_none : s.global_N = none

theorem LeafInv.init (lowercase : Bool) (stoplist : List String) :
    LeafInv (init_index lowercase stoplist) := by
  constructor <;> simp [init_index]

/-- Unfolding `MapSimIndex.index_doc` to its field-by-field effect. -/
theorem index_doc_def (s : MapSimIndex) (name : String) (file : List String) :
    s.index_doc name file = { s with
      name_to_docid_map := aset s.name_to_docid_map name s.next_docid
      docid_to_name_map := aset s.docid_to_name_map s.next_docid name
      df_map := MapSimIndex.df_bump s.df_map (term_vec file s.stoplist s.lowercase)
      term_index := (term_vec file s.stoplist s.lowercase).foldl
        (fun ti p => aset ti p.1
          ((alookup ti (canon_term s.lowercase p.1)).getD []
            ++ [(s.next_docid, p.2)])) s.term_index
      doc_len_map := aset s.doc_len_map s.next_docid
        (l2_norm_sq (term_vec file s.stoplist s.lowercase))
      doc_vectors := aset s.doc_vectors s.next_docid
        (term_vec file s.stoplist s.lowercase)
      N := s.N + 1
      next_docid := s.next_docid + 1 } := rfl

/-- With unique first components, filtering one present key out of a
postings list removes exactly one entry. -/
theorem length_filter_ne_of_nodup {α β : Type _} [DecidableEq α]
    {pl : List (α × β)} {k : α} {f : β}
    (hnd : (pl.map Prod.fst).Nodup) (hmem : (k, f) ∈ pl) :
    (pl.filter (fun e => e.1 ≠ k)).length = pl.length - 1 := by
  induction pl with
  | nil => simp at hmem
  | cons e pl ih =>
    rw [List.map_cons, List.nodup_cons] at hnd
    by_cases he : e.1 = k
    · have hall : ∀ q ∈ pl, q.1 ≠ k := by
        intro q hq hqk
        apply hnd.1
        rw [he, ← hqk]
        exact List.mem_map_of_mem Prod.fst hq
      have hfeq : pl.filter (fun e => e.1 ≠ k) = pl :=
        List.filter_eq_self.mpr (fun q hq => by simpa using hall q hq)
      rw [List.filter_cons, if_neg (by simp [he]), hfeq]
      simp
    · have hmem' : (k, f) ∈ pl := by
        rcases List.mem_cons.mp hmem with h | h
        · exact absurd (by rw [← h]) he
        · exact h
      have hpos : 1 ≤ pl.length :=
        List.length_pos.mpr (fun hnil => by simp [hnil] at hmem')
      rw [List.filter_cons, if_pos (by simpa using he)]
      rw [List.length_cons, List.length_cons, ih hnd.2 hmem']
      omega

theorem LeafInv.index_doc_pres {s : MapSimIndex} (inv : LeafInv s) (name : String)
    (file : List String) (fresh : alookup s.name_to_docid_map name = none) :
    LeafInv (s.index_doc name file) := by
  obtain ⟨wf1, wf2⟩ := term_vec_wf file s.stoplist s.lowercase
  rw [index_doc_def]
  have hti : ∀ t, alookup ((term_vec file s.stoplist s.lowercase).foldl
      (fun ti p => aset ti p.1 ((alookup ti (canon_term s.lowercase p.1)).getD []
        ++ [(s.next_docid, p.2)])) s.term_index) t
      = match alookup (term_vec file s.stoplist s.lowercase) t with
        | some f => some ((alookup s.term_index t).getD [] ++ [(s.next_docid, f)])
        | none => alookup s.term_index t :=
    fun t => add_vec_fold_alookup s.lowercase s.next_docid t _ s.term_index wf1
      (fun p hp => (wf2 p hp).2)
  have hdf : ∀ t, alookup (MapSimIndex.df_bump s.df_map
        (term_vec file s.stoplist s.lowercase)) t
      = if t ∈ akeys (term_vec file s.stoplist s.lowercase)
        then some ((alookup s.df_map t).getD 0 + 1) else alookup s.df_map t :=
    fun t => df_bump_alookup t _ s.df_map wf1
  have hdv_docid : alookup s.doc_vectors s.next_docid = none := by
    rcases hh : alookup s.doc_vectors s.next_docid with _ | tv0
    · rfl
    · exact absurd (inv.dv_lt _ (by rw [hh]; rfl)) (by omega)
  have hdn_docid : alookup s.docid_to_name_map s.next_docid = none := by
    rcases hh : alookup s.docid_to_name_map s.next_docid with _ | n0
    · rfl
    · have h2 := (inv.dn_dv_dom s.next_docid).mp (by rw [hh]; rfl)
      rw [hdv_docid] at h2
      exact absurd h2 (by simp)
  have hname_mem : name ∉ akeys s.name_to_docid_map :=
    (alookup_eq_none_iff_not_mem_akeys _ _).mp fresh
  have hdocid_dn_mem : s.next_docid ∉ akeys s.docid_to_name_map :=
    (alookup_eq_none_iff_not_mem_akeys _ _).mp hdn_docid
  have hdocid_dv_mem : s.next_docid ∉ akeys s.doc_vectors :=
    (alookup_eq_none_iff_not_mem_akeys _ _).mp hdv_docid
  constructor
  case nd_nodup =>
    exact nodup_akeys_aset _ _ _ inv.nd_nodup
  case dn_nodup =>
    exact nodup_akeys_aset _ _ _ inv.dn_nodup
  case dv_nodup =>
    exact nodup_akeys_aset _ _ _ inv.dv_nodup
  case maps_inverse =>
    intro n d
    dsimp only
    by_cases hn : n = name
    · subst hn
      rw [alookup_aset_self]
      by_cases hd : d = s.next_docid
      · subst hd
        rw [alookup_aset_self]
        simp
      · rw [alookup_aset_ne _ _ _ _ (fun h => hd h.symm)]
        constructor
        · intro h
          exact absurd (Option.some.inj h).symm hd
        · intro h
          have h2 := (inv.maps_inverse n d).mpr h
          rw [fresh] at h2
          exact absurd h2 (by simp)
    · rw [alookup_aset_ne _ _ _ _ (fun h => hn h.symm)]
      by_cases hd : d = s.next_docid
      · subst hd
        rw [alookup_aset_self]
        constructor
        · intro h
          have h2 := (inv.maps_inverse n _).mp h
          rw [hdn_docid] at h2
          exact absurd h2 (by simp)
        · intro h
          exact absurd (Option.some.inj h) (fun hh => hn hh.symm)
      · rw [alookup_aset_ne _ _ _ _ (fun h => hd h.symm)]
        exact inv.maps_inverse n d
  case nd_len =>
    dsimp only
    rw [length_aset_not_mem _ _ _ hname_mem,
        length_aset_not_mem _ _ _ hdocid_dn_mem, inv.nd_len]
  case N_len =>
    dsimp only
    rw [length_aset_not_mem _ _ _ hdocid_dn_mem, inv.N_len]
    push_cast
    ring
  case dn_dv_dom =>
    intro d
    dsimp only
    by_cases hd : d = s.next_docid
    · subst hd
      rw [alookup_aset_self, alookup_aset_self]
      simp
    · rw [alookup_aset_ne _ _ _ _ (fun h => hd h.symm),
          alookup_aset_ne _ _ _ _ (fun h => hd h.symm)]
      exact inv.dn_dv_dom d
  case dv_lt =>
    intro d hd
    dsimp only at hd ⊢
    by_cases hdd : d = s.next_docid
    · omega
    · rw [alookup_aset_ne _ _ _ _ (fun h => hdd h.symm)] at hd
      have := inv.dv_lt d hd
      omega
  case dv_wf =>
    intro d tvd h
    dsimp only at h ⊢
    by_cases hdd : d = s.next_docid
    · subst hdd
      rw [alookup_aset_self] at h
      cases Option.some.inj h
      exact ⟨wf1, wf2⟩
    · rw [alookup_aset_ne _ _ _ _ (fun hh => hdd hh.symm)] at h
      exact inv.dv_wf d tvd h
  case dv_len =>
    intro d tvd h
    dsimp only at h ⊢
    by_cases hdd : d = s.next_docid
    · subst hdd
      rw [alookup_aset_self] at h
      cases Option.some.inj h
      rw [alookup_aset_self]
    · rw [alookup_aset_ne _ _ _ _ (fun hh => hdd hh.symm)] at h
      rw [alookup_aset_ne _ _ _ _ (fun hh => hdd hh.symm)]
      exact inv.dv_len d tvd h
  case ti_sound =>
    intro t pl h
    dsimp only at h ⊢
    rw [hti t] at h
    cases htvt : alookup (term_vec file s.stoplist s.lowercase) t with
    | none =>
      simp only [htvt] at h
      obtain ⟨hne, hnd, hsnd⟩ := inv.ti_sound t pl h
      refine ⟨hne, hnd, ?_⟩
      intro d f hdf2
      obtain ⟨tvd, hdv, htvd⟩ := hsnd d f hdf2
      have hdd : d ≠ s.next_docid := by
        intro hh
        rw [hh, hdv_docid] at hdv
        cases hdv
      refine ⟨tvd, ?_, htvd⟩
      rw [alookup_aset_ne _ _ _ _ (fun hh => hdd hh.symm)]
      exact hdv
    | some f =>
      simp only [htvt] at h
      have hpl : pl = (alookup s.term_index t).getD [] ++ [(s.next_docid, f)] :=
        (Option.some.inj h).symm
      have hmemtv : (t, f) ∈ term_vec file s.stoplist s.lowercase :=
        mem_of_alookup_eq_some htvt
      refine ⟨by simp [hpl], ?_, ?_⟩
      · cases hold : alookup s.term_index t with
        | none => simp [hpl, hold]
        | some pl₀ =>
          obtain ⟨hne₀, hnd₀, hsnd₀⟩ := inv.ti_sound t pl₀ hold
          have hnot : s.next_docid ∉ pl₀.map Prod.fst := by
            intro hmem
            obtain ⟨e, he, hefst⟩ := List.mem_map.mp hmem
            obtain ⟨tvd, hdv, _⟩ := hsnd₀ e.1 e.2 (by simpa using he)
            rw [hefst, hdv_docid] at hdv
            cases hdv
          rw [hpl, hold]
          simp only [Option.getD_some, List.map_append, List.map_cons, List.map_nil]
          rw [List.nodup_append]
          refine ⟨hnd₀, List.nodup_singleton _, ?_⟩
          intro a ha hb
          rw [List.mem_singleton] at hb
          rw [hb] at ha
          exact hnot ha
      · intro d g hdg
        rw [hpl] at hdg
        rcases List.mem_append.mp hdg with hdg | hdg
        · cases hold : alookup s.term_index t with
          | none => rw [hold] at hdg; simp at hdg
          | some pl₀ =>
            rw [hold] at hdg
            simp only [Option.getD_some] at hdg
            obtain ⟨hne₀, hnd₀, hsnd₀⟩ := inv.ti_sound t pl₀ hold
            obtain ⟨tvd, hdv, htvd⟩ := hsnd₀ d g hdg
            have hdd : d ≠ s.next_docid := by
              intro hh
              rw [hh, hdv_docid] at hdv
              cases hdv
            refine ⟨tvd, ?_, htvd⟩
            rw [alookup_aset_ne _ _ _ _ (fun hh => hdd hh.symm)]
            exact hdv
        · simp at hdg
          refine ⟨term_vec file s.stoplist s.lowercase, ?_, ?_⟩
          · rw [hdg.1, alookup_aset_self]
          · rw [hdg.2]
            exact hmemtv
  case ti_complete =>
    intro d tvd h t g htg
    dsimp only at h ⊢
    by_cases hdd : d = s.next_docid
    · subst hdd
      rw [alookup_aset_self] at h
      cases Option.some.inj h
      have hlf : alookup (term_vec file s.stoplist s.lowercase) t = some g :=
        alookup_eq_some_of_mem wf1 htg
      refine ⟨(alookup s.term_index t).getD [] ++ [(s.next_docid, g)], ?_, ?_⟩
      · rw [hti t]
        simp only [hlf]
      · simp
    · rw [alookup_aset_ne _ _ _ _ (fun hh => hdd hh.symm)] at h
      obtain ⟨pl₀, hold, hmem₀⟩ := inv.ti_complete d tvd h t g htg
      rw [hti t]
      cases htvt : alookup (term_vec file s.stoplist s.lowercase) t with
      | none =>
        refine ⟨pl₀, ?_, hmem₀⟩
        simp only [htvt]
        exact hold
      | some f =>
        refine ⟨(alookup s.term_index t).getD [] ++ [(s.next_docid, f)],
          by simp only [htvt], ?_⟩
        rw [hold]
        simp only [Option.getD_some]
        exact List.mem_append_left _ hmem₀
  case df_live =>
    intro t pl h
    dsimp only at h ⊢
    rw [hti t] at h
    rw [hdf t]
    cases htvt : alookup (term_vec file s.stoplist s.lowercase) t with
    | none =>
      simp only [htvt] at h
      have hnm : t ∉ akeys (term_vec file s.stoplist s.lowercase) := by
        rw [← alookup_eq_none_iff_not_mem_akeys]
        exact htvt
      rw [if_neg hnm]
      exact inv.df_live t pl h
    | some f =>
      simp only [htvt] at h
      have hm : t ∈ akeys (term_vec file s.stoplist s.lowercase) := by
        rw [← alookup_isSome_iff_mem_akeys, htvt]
        rfl
      rw [if_pos hm]
      have hpl : pl = (alookup s.term_index t).getD [] ++ [(s.next_docid, f)] :=
        (Option.some.inj h).symm
      cases hold : alookup s.term_index t with
      | none =>
        have hz : (alookup s.df_map t).getD 0 = 0 := by
          rcases inv.df_stale t hold with h0 | h0 <;> rw [h0] <;> rfl
        rw [hz, hpl, hold]
        simp
      | some pl₀ =>
        have hv := inv.df_live t pl₀ hold
        rw [hv, hpl, hold]
        simp only [Option.getD_some, List.length_append, List.length_cons,
          List.length_nil]
        push_cast
        ring_nf
  case df_stale =>
    intro t h
    dsimp only at h ⊢
    rw [hti t] at h
    cases htvt : alookup (term_vec file s.stoplist s.lowercase) t with
    | some f =>
      simp only [htvt] at h
      cases h
    | none =>
      simp only [htvt] at h
      rw [hdf t, if_neg (by rw [← alookup_eq_none_iff_not_mem_akeys]; exact htvt)]
      exact inv.df_stale t h
  case global_df_none =>
    exact inv.global_df_none
  case global_N_none =>
    exact inv.global_N_none

theorem LeafInv.del_docid_pres {s s' : MapSimIndex} (inv : LeafInv s) (docid : Nat)
    (h : s.del_docid? docid = .ok s') : LeafInv s' := by
  rw [MapSimIndex.del_docid?] at h
  rcases hdv : alookup s.doc_vectors docid with _ | tv
  · simp only [hdv] at h
    exact Except.noConfusion h
  · simp only [hdv] at h
    have htv_wf := inv.dv_wf docid tv hdv
    have hdfsome : ∀ p ∈ tv, (alookup s.df_map p.1).isSome := by
      intro p hp
      obtain ⟨pl₀, hold, _⟩ := inv.ti_complete docid tv hdv p.1 p.2 (by simpa using hp)
      rw [inv.df_live p.1 pl₀ hold]
      rfl
    obtain ⟨df', ti', hfold, hout, hin⟩ :=
      del_fold_ok docid tv s.df_map s.term_index htv_wf.1 hdfsome
    rw [hfold] at h
    rcases hdn : alookup s.docid_to_name_map docid with _ | name
    · have h2 := (inv.dn_dv_dom docid).mpr (by rw [hdv]; rfl)
      rw [hdn] at h2
      exact absurd h2 (by simp)
    simp only [hdn] at h
    injection h with h
    subst h
    have hname2 : alookup s.name_to_docid_map name = some docid :=
      (inv.maps_inverse name docid).mpr hdn
    have hname_mem : name ∈ akeys s.name_to_docid_map :=
      (alookup_isSome_iff_mem_akeys _ _).mp (by rw [hname2]; rfl)
    have hdocid_dn_mem : docid ∈ akeys s.docid_to_name_map :=
      (alookup_isSome_iff_mem_akeys _ _).mp (by rw [hdn]; rfl)
    constructor
    case nd_nodup => exact nodup_akeys_adel _ _ inv.nd_nodup
    case dn_nodup => exact nodup_akeys_adel _ _ inv.dn_nodup
    case dv_nodup => exact nodup_akeys_adel _ _ inv.dv_nodup
    case maps_inverse =>
      intro n d
      dsimp only
      by_cases hn : n = name
      · subst hn
        rw [alookup_adel_self]
        constructor
        · intro hcon
          cases hcon
        · intro hr
          by_cases hd : d = docid
          · rw [hd, alookup_adel_self] at hr
            cases hr
          · rw [alookup_adel_ne _ _ _ hd] at hr
            have h2 := (inv.maps_inverse n d).mpr hr
            rw [hname2] at h2
            exact absurd (Option.some.inj h2).symm hd
      · rw [alookup_adel_ne _ _ _ hn]
        by_cases hd : d = docid
        · rw [hd, alookup_adel_self]
          constructor
          · intro hl
            have h2 := (inv.maps_inverse n docid).mp hl
            rw [hdn] at h2
            exact absurd (Option.some.inj h2).symm hn
          · intro hcon
            cases hcon
        · rw [alookup_adel_ne _ _ _ hd]
          exact inv.maps_inverse n d
    case nd_len =>
      dsimp only
      rw [length_adel_mem _ _ inv.nd_nodup hname_mem,
          length_adel_mem _ _ inv.dn_nodup hdocid_dn_mem, inv.nd_len]
    case N_len =>
      dsimp only
      rw [length_adel_mem _ _ inv.dn_nodup hdocid_dn_mem, inv.N_len]
      have hpos : 1 ≤ s.docid_to_name_map.length := by
        rcases List.mem_map.mp hdocid_dn_mem with ⟨q, hq, _⟩
        exact List.length_pos.mpr (fun hnil => by simp [hnil] at hq)
      omega
    case dn_dv_dom =>
      intro d
      dsimp only
      by_cases hd : d = docid
      · rw [hd, alookup_adel_self, alookup_adel_self]
        exact Iff.rfl
      · rw [alookup_adel_ne _ _ _ hd, alookup_adel_ne _ _ _ hd]
        exact inv.dn_dv_dom d
    case dv_lt =>
      intro d hd
      dsimp only at hd ⊢
      by_cases hdd : d = docid
      · rw [hdd, alookup_adel_self] at hd
        cases hd
      · rw [alookup_adel_ne _ _ _ hdd] at hd
        exact inv.dv_lt d hd
    case dv_wf =>
      intro d tvd hd
      dsimp only at hd ⊢
      by_cases hdd : d = docid
      · rw [hdd, alookup_adel_self] at hd
        cases hd
      · rw [alookup_adel_ne _ _ _ hdd] at hd
        exact inv.dv_wf d tvd hd
    case dv_len =>
      intro d tvd hd
      dsimp only at hd ⊢
      by_cases hdd : d = docid
      · rw [hdd, alookup_adel_self] at hd
        cases hd
      · rw [alookup_adel_ne _ _ _ hdd] at hd
        rw [alookup_adel_ne _ _ _ hdd]
        exact inv.dv_len d tvd hd
    case ti_sound =>
      intro t pl' hpl'
      dsimp only at hpl' ⊢
      by_cases hmem : t ∈ akeys tv
      · obtain ⟨p, hp, hpt⟩ := List.mem_map.mp hmem
        have hptv : (t, p.2) ∈ tv := by
          rw [← hpt]
          simpa using hp
        obtain ⟨hdf_t, hti_t⟩ := hin t p.2 hptv
        obtain ⟨pl₀, hold, hdmem⟩ := inv.ti_complete docid tv hdv t p.2 hptv
        obtain ⟨hne₀, hnd₀, hsnd₀⟩ := inv.ti_sound t pl₀ hold
        have hgetd : (alookup s.term_index t).getD [] = pl₀ := by rw [hold]; rfl
        rw [hgetd] at hti_t
        rw [hti_t] at hpl'
        by_cases hlen : (pl₀.filter (fun e => e.1 ≠ docid)).length = 0
        · rw [if_pos hlen] at hpl'
          cases hpl'
        · rw [if_neg hlen] at hpl'
          have hpl'' : pl' = pl₀.filter (fun e => e.1 ≠ docid) :=
            (Option.some.inj hpl').symm
          refine ⟨?_, ?_, ?_⟩
          · intro hnil
            rw [hnil] at hpl''
            exact hlen (by rw [← hpl'']; rfl)
          · rw [hpl'']
            exact hnd₀.sublist ((pl₀.filter_sublist).map _)
          · intro d g hdg
            rw [hpl''] at hdg
            have hdg' := List.mem_filter.mp hdg
            obtain ⟨tvd, hdvd, htvd⟩ := hsnd₀ d g hdg'.1
            have hddocid : d ≠ docid := by simpa using hdg'.2
            refine ⟨tvd, ?_, htvd⟩
            rw [alookup_adel_ne _ _ _ hddocid]
            exact hdvd
      · obtain ⟨hdf_t, hti_t⟩ := hout t hmem
        rw [hti_t] at hpl'
        obtain ⟨hne₀, hnd₀, hsnd₀⟩ := inv.ti_sound t pl' hpl'
        refine ⟨hne₀, hnd₀, ?_⟩
        intro d g hdg
        obtain ⟨tvd, hdvd, htvd⟩ := hsnd₀ d g hdg
        have hddocid : d ≠ docid := by
          intro hh
          rw [hh, hdv] at hdvd
          have h3 : (t, g) ∈ tv := Option.some.inj hdvd ▸ htvd
          exact hmem (List.mem_map_of_mem Prod.fst h3)
        refine ⟨tvd, ?_, htvd⟩
        rw [alookup_adel_ne _ _ _ hddocid]
        exact hdvd
    case ti_complete =>
      intro d tvd hd t g htg
      dsimp only at hd ⊢
      have hddocid : d ≠ docid := by
        intro hh
        rw [hh, alookup_adel_self] at hd
        cases hd
      rw [alookup_adel_ne _ _ _ hddocid] at hd
      obtain ⟨pl₀, hold, hmem₀⟩ := inv.ti_complete d tvd hd t g htg
      by_cases hmem : t ∈ akeys tv
      · obtain ⟨p, hp, hpt⟩ := List.mem_map.mp hmem
        have hptv : (t, p.2) ∈ tv := by
          rw [← hpt]
          simpa using hp
        obtain ⟨_, hti_t⟩ := hin t p.2 hptv
        have hgetd : (alookup s.term_index t).getD [] = pl₀ := by rw [hold]; rfl
        rw [hgetd] at hti_t
        have hdgmem : (d, g) ∈ pl₀.filter (fun e => e.1 ≠ docid) :=
          List.mem_filter.mpr ⟨hmem₀, by simpa using hddocid⟩
        have hlen : ¬ (pl₀.filter (fun e => e.1 ≠ docid)).length = 0 := by
          intro h0
          rw [List.length_eq_zero] at h0
          rw [h0] at hdgmem
          cases hdgmem
        refine ⟨pl₀.filter (fun e => e.1 ≠ docid), ?_, hdgmem⟩
        rw [hti_t, if_neg hlen]
      · obtain ⟨_, hti_t⟩ := hout t hmem
        refine ⟨pl₀, ?_, hmem₀⟩
        rw [hti_t]
        exact hold
    case df_live =>
      intro t pl' hpl'
      dsimp only at hpl' ⊢
      by_cases hmem : t ∈ akeys tv
      · obtain ⟨p, hp, hpt⟩ := List.mem_map.mp hmem
        have hptv : (t, p.2) ∈ tv := by
          rw [← hpt]
          simpa using hp
        obtain ⟨hdf_t, hti_t⟩ := hin t p.2 hptv
        obtain ⟨pl₀, hold, hdmem⟩ := inv.ti_complete docid tv hdv t p.2 hptv
        obtain ⟨hne₀, hnd₀, hsnd₀⟩ := inv.ti_sound t pl₀ hold
        have hgetd : (alookup s.term_index t).getD [] = pl₀ := by rw [hold]; rfl
        rw [hgetd] at hti_t
        rw [hti_t] at hpl'
        by_cases hlen : (pl₀.filter (fun e => e.1 ≠ docid)).length = 0
        · rw [if_pos hlen] at hpl'
          cases hpl'
        · rw [if_neg hlen] at hpl'
          have hpl'' : pl' = pl₀.filter (fun e => e.1 ≠ docid) :=
            (Option.some.inj hpl').symm
          rw [hdf_t, inv.df_live t pl₀ hold]
          have hflen : (pl₀.filter (fun e => e.1 ≠ docid)).length = pl₀.length - 1 :=
            length_filter_ne_of_nodup hnd₀ hdmem
          have hpos : 0 < pl₀.length := List.length_pos.mpr hne₀
          rw [hpl'', hflen]
          simp only [Option.map_some']
          congr 1
          omega
      · obtain ⟨hdf_t, hti_t⟩ := hout t hmem
        rw [hti_t] at hpl'
        rw [hdf_t]
        exact inv.df_live t pl' hpl'
    case df_stale =>
      intro t hnone
      dsimp only at hnone ⊢
      by_cases hmem : t ∈ akeys tv
      · obtain ⟨p, hp, hpt⟩ := List.mem_map.mp hmem
        have hptv : (t, p.2) ∈ tv := by
          rw [← hpt]
          simpa using hp
        obtain ⟨hdf_t, hti_t⟩ := hin t p.2 hptv
        obtain ⟨pl₀, hold, hdmem⟩ := inv.ti_complete docid tv hdv t p.2 hptv
        obtain ⟨hne₀, hnd₀, _⟩ := inv.ti_sound t pl₀ hold
        have hgetd : (alookup s.term_index t).getD [] = pl₀ := by rw [hold]; rfl
        rw [hgetd] at hti_t
        rw [hti_t] at hnone
        by_cases hlen : (pl₀.filter (fun e => e.1 ≠ docid)).length = 0
        · have hflen : (pl₀.filter (fun e => e.1 ≠ docid)).length = pl₀.length - 1 :=
            length_filter_ne_of_nodup hnd₀ hdmem
          have hpos : 0 < pl₀.length := List.length_pos.mpr hne₀
          have hlen1 : pl₀.length = 1 := by omega
          right
          rw [hdf_t, inv.df_live t pl₀ hold, hlen1]
          rfl
        · rw [if_neg hlen] at hnone
          cases hnone
      · obtain ⟨hdf_t, hti_t⟩ := hout t hmem
        rw [hti_t] at hnone
        rw [hdf_t]
        exact inv.df_stale t hnone
    case global_df_none => exact inv.global_df_none
    case global_N_none => exact inv.global_N_none

/-- Every reachable leaf state satisfies the invariant. -/
theorem reachable_leaf_inv {s : MapSimIndex} (h : Reachable s) : LeafInv s := by
  induction h with
  | init lowercase stoplist => exact LeafInv.init lowercase stoplist
  | index_doc name file _ fresh ih => exact ih.index_doc_pres name file fresh
  | del_docid docid _ hdel ih => exact ih.del_docid_pres docid hdel

/-! ## `query_scorer.py` -/

/-- Python `sorted(items, key=operator.itemgetter(1), reverse=True)`:
a stable sort descending by the second component. -/
def sort_by_score_desc {σ : Type _} [LinearOrder σ] (l : List (Nat × σ)) :
    List (Nat × σ) :=
  l.insertionSort (fun a b => b.2 ≤ a.2)

instance {σ : Type _} [LinearOrder σ] :
    IsTotal (Nat × σ) (fun a b => b.2 ≤ a.2) :=
  ⟨fun a b => le_total b.2 a.2⟩

instance {σ : Type _} [LinearOrder σ] :
    IsTrans (Nat × σ) (fun a b => b.2 ≤ a.2) :=
  ⟨fun _ _ _ h1 h2 => le_trans h2 h1⟩

theorem sort_by_score_desc_sorted {σ : Type _} [LinearOrder σ] (l : List (Nat × σ)) :
    (sort_by_score_desc l).Sorted (fun a b => b.2 ≤ a.2) :=
  List.sorted_insertionSort _ l

theorem sort_by_score_desc_perm {σ : Type _} [LinearOrder σ] (l : List (Nat × σ)) :
    (sort_by_score_desc l).Perm l :=
  List.perm_insertionSort _ l

namespace SimpleCountQueryScorer

/-- `doc_hit_map[docid] += freq` on a `defaultdict(int)`. -/
def add_hit (m : List (Nat × Nat)) (e : Nat × Nat) : List (Nat × Nat) :=
  aset m e.1 ((alookup m e.1).getD 0 + e.2)

/-- One iteration of the postings-lists loop of
`SimpleCountQueryScorer.score_docs`: `query_vec[term]` raises `KeyError`
on a missing term, `assert(query_vec[term] >= 1)` raises on a
non-positive frequency, and then every posting of the list is
accumulated. -/
def acc_step (query_vec : List (String × Nat)) (m : List (Nat × Nat))
    (tp : String × List (Nat × Nat)) : Option (List (Nat × Nat)) :=
  match alookup query_vec tp.1 with
  | none => none
  | some q => if 1 ≤ q then some (tp.2.foldl add_hit m) else none

/-- `SimpleCountQueryScorer.score_docs`. -/
def score_docs (query_vec : List (String × Nat))
    (postings_lists : List (String × List (Nat × Nat))) :
    Option (List (Nat × Nat)) :=
  match postings_lists.foldlM (acc_step query_vec) [] with
  | none => none
  | some hits => some (sort_by_score_desc hits)

/-- The score the claim ascribes to a document: the sum of `freq` over
all pairs `(d, freq)` appearing in any of the given postings lists. -/
def total_freq (postings_lists : List (String × List (Nat × Nat))) (d : Nat) : Nat :=
  ((((postings_lists.map Prod.snd).flatten).filter (fun e => e.1 = d)).map Prod.snd).sum

end SimpleCountQueryScorer

namespace TFIDFQueryScorer

/-- One iteration of the postings-lists loop of
`TFIDFQueryScorer.score_docs`:

    idf = self.idf_weight(N, get_doc_freq(term))
    query_term_wt = self.tf_weight(query_vec[term]) * idf
    for (docid, freq) in postings_list:
        doc_hit_map[docid] += self.tf_weight(freq) * query_term_wt

`tf_weight` and `idf_weight` are instance attributes of the source class
(chosen in `__init__`; the reference instantiations are `raw`/`log`
weights over floats, whose transcendental `log` is kept abstract here);
scores are embedded in `ℚ`. -/
def acc_step (tf_weight : Nat → ℚ) (idf_weight : Int → Int → ℚ)
    (query_vec : List (String × Nat)) (N : Int) (get_doc_freq : String → Int)
    (m : List (Nat × ℚ)) (tp : String × List (Nat × Nat)) :
    Option (List (Nat × ℚ)) :=
  match alookup query_vec tp.1 with
  | none => none
  | some q =>
    let w := tf_weight q * idf_weight N (get_doc_freq tp.1)
    some (tp.2.foldl
      (fun m e => aset m e.1 ((alookup m e.1).getD 0 + tf_weight e.2 * w)) m)

/-- The length-normalisation loop of `TFIDFQueryScorer.score_docs`:

    for (docid, weight) in doc_hit_map.iteritems():
        doc_len = get_doc_len(docid)
        doc_hit_map[docid] = weight / doc_len

Python division raises `ZeroDivisionError` when `doc_len == 0`. -/
def normalize_step (get_doc_len : Nat → ℚ) (e : Nat × ℚ) : Option (Nat × ℚ) :=
  if get_doc_len e.1 = 0 then none else some (e.1, e.2 / get_doc_len e.1)

/-- `TFIDFQueryScorer.score_docs`. Returns `()` when `N == 0`. -/
def score_docs (tf_weight : Nat → ℚ) (idf_weight : Int → Int → ℚ)
    (query_vec : List (String × Nat)) (postings_lists : List (String × List (Nat × Nat)))
    (N : Int) (get_doc_freq : String → Int) (get_doc_len : Nat → ℚ) :
    Option (List (Nat × ℚ)) :=
  if N = 0 then some []
  else
    match postings_lists.foldlM
        (acc_step tf_weight idf_weight query_vec N get_doc_freq) [] with
    | none => none
    | some hits =>
      match hits.mapM (normalize_step get_doc_len) with
      | none => none
      | some normalized => some (sort_by_score_desc normalized)

end TFIDFQueryScorer

/-! ### Characterisations of the scorer accumulation loops -/

theorem getD_alookup_aset' {κ ν : Type _} [DecidableEq κ]
    (m : List (κ × ν)) (k t : κ) (v d₀ : ν) :
    (alookup (aset m k v) t).getD d₀
      = if k = t then v else (alookup m t).getD d₀ := by
  by_cases h : k = t
  · rw [if_pos h, ← h, alookup_aset_self]
    rfl
  · rw [if_neg h, alookup_aset_ne m k t v h]

theorem mem_akeys_aset {κ ν : Type _} [DecidableEq κ]
    (m : List (κ × ν)) (k : κ) (v : ν) (d : κ) :
    d ∈ akeys (aset m k v) ↔ d ∈ akeys m ∨ d = k := by
  rw [akeys_aset]
  split
  · next hk =>
    constructor
    · exact Or.inl
    · rintro (h | h)
      · exact h
      · exact h ▸ hk
  · next hk =>
    simp [List.mem_append]

theorem mem_akeys_foldl_aset {κ ν ε : Type _} [DecidableEq κ] (key : ε → κ)
    (val : List (κ × ν) → ε → ν) (d : κ) (pairs : List ε) :
    ∀ m, d ∈ akeys (pairs.foldl (fun m e => aset m (key e) (val m e)) m)
      ↔ d ∈ akeys m ∨ d ∈ pairs.map key := by
  induction pairs with
  | nil => intro m; simp
  | cons e pairs ih =>
    intro m
    rw [List.foldl_cons, ih, mem_akeys_aset, List.map_cons]
    constructor
    · rintro ((h | h) | h)
      · exact Or.inl h
      · exact Or.inr (h ▸ List.mem_cons_self _ _)
      · exact Or.inr (List.mem_cons_of_mem _ h)
    · rintro (h | h)
      · exact Or.inl (Or.inl h)
      · rcases List.mem_cons.mp h with h | h
        · exact Or.inl (Or.inr h)
        · exact Or.inr h

theorem nodup_akeys_foldl_aset {κ ν ε : Type _} [DecidableEq κ] (key : ε → κ)
    (val : List (κ × ν) → ε → ν) (pairs : List ε) :
    ∀ m, (akeys m).Nodup →
      (akeys (pairs.foldl (fun m e => aset m (key e) (val m e)) m)).Nodup := by
  induction pairs with
  | nil => exact fun m h => h
  | cons e pairs ih =>
    intro m h
    rw [List.foldl_cons]
    exact ih _ (nodup_akeys_aset _ _ _ h)

namespace SimpleCountQueryScorer

theorem mem_akeys_fold_add_hit (d : Nat) (pairs : List (Nat × Nat))
    (m : List (Nat × Nat)) :
    d ∈ akeys (pairs.foldl add_hit m) ↔ d ∈ akeys m ∨ d ∈ pairs.map Prod.fst :=
  mem_akeys_foldl_aset Prod.fst (fun m e => (alookup m e.1).getD 0 + e.2) d pairs m

theorem nodup_akeys_fold_add_hit (pairs : List (Nat × Nat))
    (m : List (Nat × Nat)) (h : (akeys m).Nodup) :
    (akeys (pairs.foldl add_hit m)).Nodup :=
  nodup_akeys_foldl_aset Prod.fst (fun m e => (alookup m e.1).getD 0 + e.2) pairs m h

theorem fold_add_hit_getD (d : Nat) (pairs : List (Nat × Nat)) :
    ∀ m, (alookup (pairs.foldl add_hit m) d).getD 0
      = (alookup m d).getD 0 + ((pairs.filter (fun e => e.1 = d)).map Prod.snd).sum := by
  induction pairs with
  | nil => intro m; simp
  | cons e pairs ih =>
    intro m
    rw [List.foldl_cons, ih]
    have hstep : (alookup (add_hit m e) d).getD 0
        = if e.1 = d then (alookup m d).getD 0 + e.2 else (alookup m d).getD 0 := by
      rw [add_hit, getD_alookup_aset']
      by_cases h : e.1 = d
      · rw [if_pos h, if_pos h, h]
      · rw [if_neg h, if_neg h]
    rw [hstep, List.filter_cons]
    by_cases h : e.1 = d
    · rw [if_pos h, if_pos (by simp [h])]
      simp only [List.map_cons, List.sum_cons]
      omega
    · rw [if_neg h, if_neg (by simp [h])]

/-- Under the assert precondition, the accumulation succeeds and equals a
plain fold of `add_hit` over the concatenation of the postings lists. -/
theorem foldlM_acc_step_eq (query_vec : List (String × Nat)) :
    ∀ (postings_lists : List (String × List (Nat × Nat))),
      (∀ tp ∈ postings_lists, ∃ q, alookup query_vec tp.1 = some q ∧ 1 ≤ q) →
      ∀ m, postings_lists.foldlM (acc_step query_vec) m
        = some (((postings_lists.map Prod.snd).flatten).foldl add_hit m) := by
  intro postings_lists
  induction postings_lists with
  | nil => intro _ m; rfl
  | cons tp pls ih =>
    intro hvalid m
    obtain ⟨q, hq, hq1⟩ := hvalid tp (List.mem_cons_self _ _)
    have hstep : acc_step query_vec m tp = some (tp.2.foldl add_hit m) := by
      rw [acc_step, hq]
      simp [hq1]
    have hrest := ih (fun tp' h' => hvalid tp' (List.mem_cons_of_mem _ h'))
      (tp.2.foldl add_hit m)
    rw [List.foldlM_cons, hstep]
    show pls.foldlM (acc_step query_vec) (tp.2.foldl add_hit m)
      = some (((tp :: pls).map Prod.snd).flatten.foldl add_hit m)
    rw [hrest, List.map_cons, List.flatten_cons, List.foldl_append]

end SimpleCountQueryScorer

theorem mapM_loop_eq_none_of_mem {α β : Type _} (f : α → Option β) :
    ∀ (l : List α) (acc : List β) (a : α), a ∈ l → f a = none →
      List.mapM.loop f l acc = none := by
  intro l
  induction l with
  | nil => intro acc a ha; simp at ha
  | cons x l ih =>
    intro acc a ha hf
    cases hx : f x with
    | none => simp [List.mapM.loop, hx]
    | some b =>
      rcases List.mem_cons.mp ha with h | h
      · rw [h] at hf
        rw [hf] at hx
        exact Option.noConfusion hx
      · simp only [List.mapM.loop, hx]
        exact ih (b :: acc) a h hf

theorem mapM_eq_none_of_mem {α β : Type _} (f : α → Option β)
    (l : List α) (a : α) (ha : a ∈ l) (hf : f a = none) : l.mapM f = none :=
  mapM_loop_eq_none_of_mem f l [] a ha hf

namespace TFIDFQueryScorer

/-- A successful tf·idf accumulation pass mentions, among its keys, every
docid of every given postings list. -/
theorem foldlM_acc_step_covers (tf_weight : Nat → ℚ) (idf_weight : Int → Int → ℚ)
    (query_vec : List (String × Nat)) (N : Int) (get_doc_freq : String → Int) :
    ∀ (postings_lists : List (String × List (Nat × Nat))) (m hits : List (Nat × ℚ)),
      postings_lists.foldlM
        (acc_step tf_weight idf_weight query_vec N get_doc_freq) m = some hits →
      (∀ d, d ∈ akeys m → d ∈ akeys hits) ∧
      (∀ tp ∈ postings_lists, ∀ e ∈ tp.2, e.1 ∈ akeys hits) := by
  intro postings_lists
  induction postings_lists with
  | nil =>
    intro m hits h
    have hm : m = hits := by
      simpa using h
    subst hm
    exact ⟨fun d hd => hd, by simp⟩
  | cons tp pls ih =>
    intro m hits h
    rw [List.foldlM_cons] at h
    cases hq : alookup query_vec tp.1 with
    | none =>
      rw [show acc_step tf_weight idf_weight query_vec N get_doc_freq m tp = none by
        rw [acc_step, hq]] at h
      exact Option.noConfusion h
    | some q =>
      rw [show acc_step tf_weight idf_weight query_vec N get_doc_freq m tp
          = some (tp.2.foldl (fun m e => aset m e.1 ((alookup m e.1).getD 0
              + tf_weight e.2 * (tf_weight q * idf_weight N (get_doc_freq tp.1)))) m) by
        rw [acc_step, hq]] at h
      have h' : pls.foldlM (acc_step tf_weight idf_weight query_vec N get_doc_freq)
          (tp.2.foldl (fun m e => aset m e.1 ((alookup m e.1).getD 0
            + tf_weight e.2 * (tf_weight q * idf_weight N (get_doc_freq tp.1)))) m)
          = some hits := h
      obtain ⟨hmono, hcover⟩ := ih _ hits h'
      have hkeys : ∀ d, d ∈ akeys (tp.2.foldl (fun m e => aset m e.1
          ((alookup m e.1).getD 0
            + tf_weight e.2 * (tf_weight q * idf_weight N (get_doc_freq tp.1)))) m)
          ↔ d ∈ akeys m ∨ d ∈ tp.2.map Prod.fst := fun d =>
        mem_akeys_foldl_aset Prod.fst _ d tp.2 m
      constructor
      · intro d hd
        exact hmono d ((hkeys d).mpr (Or.inl hd))
      · intro tp' htp' e he
        rcases List.mem_cons.mp htp' with h'' | h''
        · apply hmono
          apply (hkeys e.1).mpr
          right
          rw [h''] at he
          exact List.mem_map_of_mem Prod.fst he
        · exact hcover tp' h'' e he

end TFIDFQueryScorer

/-! ## `sim_index/sim_index_collection.py` — the sharded collection

Shards are local `MapSimIndex` leaves (the sample configuration of the
source's test suite). A Python `int()` call is `parse_nat` on the
character list, `str.partition('-')` is `break_at_dash`, both
structurally recursive. -/

/-- Split a character list at the first `'-'`:
`break_at_dash s = (before, after)`, matching
`s.partition('-') = (before, '-', after)` (only used after the
`assert '-' in docid` guard). -/
def break_at_dash : List Char → List Char × List Char
  | [] => ([], [])
  | c :: cs => if c = '-' then ([], cs) else
      let p := break_at_dash cs
      (c :: p.1, p.2)

/-- Python `int(s)` for a nonnegative decimal string (`ValueError`
otherwise, modelled as `none`). -/
def parse_nat (cs : List Char) : Option Nat :=
  if cs = [] then none
  else cs.foldl (fun acc c => match acc with
    | none => none
    | some n => if c.isDigit then some (n * 10 + (c.toNat - '0'.toNat)) else none)
    (some 0)

structure SimIndexCollection where
  shards : List MapSimIndex
  /-- The per-instance salted hash underlying `default_shard_func`
  (`hash(str(shard_key) + self._salt)`; the `os.urandom` salt and the
  process-local CPython `hash` are abstracted as an arbitrary function
  fixed at construction). -/
  default_hash : String → Nat
  /-- `self._shard_func`: the attribute that `set_shard_func` assigns.
  No other code reads it; the write paths call `self.shard_func`, which
  `__init__` bound to `default_shard_func` and which is never
  reassigned. -/
  _shard_func : Option (String → Nat)
  name_to_docid_map : List (String × String)
  docid_to_name_map : List (String × String)
  df_map : List (String × Int)
  N : Int
  dirty : Bool
  root : Bool

namespace SimIndexCollection

/-- `SimIndexCollection.default_shard_func`:
`hash(str(shard_key) + self._salt) % len(self._shards)`. -/
def default_shard_func (c : SimIndexCollection) (shard_key : String) : Nat :=
  c.default_hash shard_key % c.shards.length

/-- `self.shard_func`, the function the write paths consult: assigned
once in `__init__` as the bound method `default_shard_func` and never
reassigned afterwards (`set_shard_func` stores into the *different*
attribute `_shard_func`). -/
def shard_func (c : SimIndexCollection) (shard_key : String) : Nat :=
  c.default_shard_func shard_key

/-- `SimIndexCollection.set_shard_func`: `self._shard_func = func`. -/
def set_shard_func (c : SimIndexCollection) (func : String → Nat) :
    SimIndexCollection :=
  { c with _shard_func := some func }

/-- `SimIndexCollection.make_node_docid`. -/
def make_node_docid (shard_id : Nat) (docid : String) : String :=
  toString shard_id ++ "-" ++ docid

/-- The `merge_df_map` helper of `update_node_stats`. -/
def merge_df_map (target source : List (String × Int)) : List (String × Int) :=
  source.foldl (fun tgt p => aset tgt p.1 ((alookup tgt p.1).getD 0 + p.2)) target

/-- The second loop of `update_node_stats`: push one shard's
`name → docid` map into the collection's two maps (overwriting entries
in place; the maps are *not* cleared first). -/
def push_shard_map (nd dn : List (String × String)) (shard_id : Nat)
    (shard_map : List (String × Nat)) :
    List (String × String) × List (String × String) :=
  shard_map.foldl (fun acc p =>
    (aset acc.1 p.1 (make_node_docid shard_id (toString p.2)),
     aset acc.2 (make_node_docid shard_id (toString p.2)) p.1)) (nd, dn)

/-- `SimIndexCollection.update_node_stats`: `_N` and `_df_map` are
recomputed from scratch (`self._N = 0`, `self._df_map = {}`), the
name ↔ node-docid maps are only updated by assignment. -/
def update_node_stats (c : SimIndexCollection) : SimIndexCollection :=
  let N := (c.shards.map MapSimIndex.get_local_N).sum
  let df := c.shards.foldl (fun tgt sh => merge_df_map tgt sh.df_map) []
  let maps := c.shards.enum.foldl
    (fun acc is => push_shard_map acc.1 acc.2 is.1 is.2.name_to_docid_map)
    (c.name_to_docid_map, c.docid_to_name_map)
  { c with
    N := N
    df_map := df
    name_to_docid_map := maps.1
    docid_to_name_map := maps.2 }

/-- `SimIndexCollection.broadcast_node_stats` (root only): push the
aggregated stats down to every shard. -/
def broadcast_node_stats (c : SimIndexCollection) : SimIndexCollection :=
  let shards := c.shards.map
    (fun sh => (sh.set_global_N c.N).set_global_df_map c.df_map)
  { c with shards := shards }

/-- `SimIndexCollection.update_trigger_helper`. -/
def update_trigger_helper (c : SimIndexCollection) : SimIndexCollection :=
  let c := update_node_stats c
  if c.root then broadcast_node_stats c else c

/-- The `update_trigger` decorator: set the dirty flag, run the wrapped
method, and if the flag is still set run `update_trigger_helper` and
clear it. An exception in the method propagates. -/
def with_update_trigger
    (method : SimIndexCollection → Except String SimIndexCollection)
    (c : SimIndexCollection) : Except String SimIndexCollection :=
  match method { c with dirty := true } with
  | Except.error e => Except.error e
  | Except.ok c' =>
    if c'.dirty then Except.ok { update_trigger_helper c' with dirty := false }
    else Except.ok c'

/-- The body of `SimIndexCollection.index_string_buffers`: group the
`(name, buffer)` pairs by `self.shard_func(name)` (a `defaultdict`, so
shard ids appear in first-encounter order), then issue one
`index_string_buffers` call per shard with its share. A buffer is a
stream of lines (`List String`). -/
def index_string_buffers_body (named : List (String × List String))
    (c : SimIndexCollection) : Except String SimIndexCollection :=
  let grouped := named.foldl
    (fun g p => aset g (c.shard_func p.1) ((alookup g (c.shard_func p.1)).getD [] ++ [p]))
    ([] : List (Nat × List (String × List String)))
  grouped.foldlM (fun c' gp =>
    match c'.shards.get? gp.1 with
    | none => Except.error "IndexError: shards[shard_id]"
    | some sh => Except.ok { c' with shards := c'.shards.set gp.1 (sh.index_files gp.2) })
    c

/-- `SimIndexCollection.index_string_buffers` (wrapped in the update
trigger). -/
def index_string_buffers (named : List (String × List String))
    (c : SimIndexCollection) : Except String SimIndexCollection :=
  with_update_trigger (index_string_buffers_body named) c

/-- The body of `SimIndexCollection.index_files`: materialise each file
into a string buffer and forward to the *wrapped* `index_string_buffers`
(which is itself decorated with the update trigger). -/
def index_files_body (named_files : List (String × List String))
    (c : SimIndexCollection) : Except String SimIndexCollection :=
  index_string_buffers named_files c

/-- `SimIndexCollection.index_files` (wrapped in the update trigger). -/
def index_files (named_files : List (String × List String))
    (c : SimIndexCollection) : Except String SimIndexCollection :=
  with_update_trigger (index_files_body named_files) c

/-- The body of `SimIndexCollection.del_docids`: every docid must be
compound (`assert '-' in docid`); group by the leading shard id
(`int(...)`, `ValueError` on garbage); a remainder that still contains
`'-'` is passed through as a string (and a leaf shard then raises
`KeyError` on it, its docids being ints), else it is `int`-converted;
finally dispatch one `del_docids` call per shard. -/
def del_docids_body (docids : List String) (c : SimIndexCollection) :
    Except String SimIndexCollection :=
  match docids.foldlM (fun (g : List (Nat × List (Nat ⊕ String))) docid =>
      if ¬ docid.data.contains '-' then Except.error "AssertionError"
      else
        let p := break_at_dash docid.data
        match parse_nat p.1 with
        | none => Except.error "ValueError: int()"
        | some shard_id =>
          let remote : Nat ⊕ String :=
            if p.2.contains '-' then Sum.inr (String.mk p.2)
            else match parse_nat p.2 with
              | none => Sum.inr (String.mk p.2)
              | some rid => Sum.inl rid
          if p.2.contains '-' ∨ (parse_nat p.2).isSome then
            Except.ok (aset g shard_id ((alookup g shard_id).getD [] ++ [remote]))
          else Except.error "ValueError: int()") [] with
  | Except.error e => Except.error e
  | Except.ok grouped =>
    grouped.foldlM (fun c' gp =>
      match c'.shards.get? gp.1 with
      | none => Except.error "IndexError: shards[shard_id]"
      | some sh =>
        match gp.2.foldlM (fun sh r =>
            match r with
            | Sum.inl rid => sh.del_docid? rid
            | Sum.inr _ => Except.error "KeyError: doc_vectors[docid]") sh with
        | Except.error e => Except.error e
        | Except.ok sh' =>
          Except.ok { c' with shards := c'.shards.set gp.1 sh' }) c

/-- `SimIndexCollection.del_docids` (wrapped in the update trigger). -/
def del_docids (docids : List String) (c : SimIndexCollection) :
    Except String SimIndexCollection :=
  with_update_trigger (del_docids_body docids) c

end SimIndexCollection

/-- `SimIndexCollection(root=...)` followed by one `add_shards(*shards)`
call (which triggers `update_trigger_helper`). -/
def mk_collection (default_hash : String → Nat) (shards : List MapSimIndex)
    (root : Bool) : SimIndexCollection :=
  SimIndexCollection.update_trigger_helper {
    shards := shards
    default_hash := default_hash
    _shard_func := none
    name_to_docid_map := []
    docid_to_name_map := []
    df_map := []
    N := 0
    dirty := false
    root := root }

/-! ## Event-trace model of the `update_trigger` decorator

To settle when `update_node_stats` runs relative to shard updates, the
decorator is also modelled as a transformer on `(dirty flag, event
trace)` pairs, with one event per observable effect. -/

inductive WriteEvent where
  | shard_update (shard_id : Nat)
  | update_stats
deriving DecidableEq

/-- The `update_trigger` wrapper on the flag/trace machine:

    self._dirty = True
    method(self, ...)
    if self._dirty:
        self.update_trigger_helper()   -- emits `update_stats`
        self._dirty = False
-/
def run_wrapped (body : Bool × List WriteEvent → Bool × List WriteEvent)
    (st : Bool × List WriteEvent) : Bool × List WriteEvent :=
  let st1 := body (true, st.2)
  if st1.1 then (false, st1.2 ++ [WriteEvent.update_stats]) else st1

/-- Body of `index_string_buffers`: one shard rpc per non-empty group
(`groups` lists the shard ids in dispatch order). -/
def index_string_buffers_events (groups : List Nat) :
    Bool × List WriteEvent → Bool × List WriteEvent :=
  fun st => (st.1, st.2 ++ groups.map WriteEvent.shard_update)

/-- The decorated `index_string_buffers`. -/
def index_string_buffers_traced (groups : List Nat) :
    Bool × List WriteEvent → Bool × List WriteEvent :=
  run_wrapped (index_string_buffers_events groups)

/-- The decorated `index_files`: its body materialises the input streams
(no shard effect) and then calls the decorated `index_string_buffers` on
`self`. -/
def index_files_traced (groups : List Nat) :
    Bool × List WriteEvent → Bool × List WriteEvent :=
  run_wrapped (fun st => index_string_buffers_traced groups st)

/-! ## `sim_index/concurrent_sim_index.py` — method dispatch -/

def READ_METHODS : List String :=
  ["name_to_docid", "docid_to_name", "postings_list", "docids_with_terms",
   "docnames_with_terms", "query", "get_local_N", "get_local_df_map",
   "get_name_to_docid_map", "config"]

def WRITE_METHODS : List String :=
  ["set_query_scorer", "set_global_N", "set_global_df_map", "load_stoplist",
   "set_config", "update_config", "index_string_buffers", "index_files",
   "del_docids"]

def NONBLOCKING_METHODS : List String := ["index_urls"]

inductive EnvelopeHandler where
  | read_handler
  | write_handler
  | nonblocking_handler
deriving DecidableEq

/-- `ConcurrentSimIndex.__getattr__`: `getattr(self._sim_index, name)`
first (raising `AttributeError` when the wrapped index has no such
attribute — `wrapped_attrs` lists the attributes it does have), then the
three method sets are consulted, and any other name raises
`Exception("Unsupported method: ...")` instead of delegating. -/
def getattr_env (wrapped_attrs : List String) (name : String) :
    Except String EnvelopeHandler :=
  if name ∉ wrapped_attrs then Except.error "AttributeError"
  else if name ∈ READ_METHODS then Except.ok EnvelopeHandler.read_handler
  else if name ∈ WRITE_METHODS then Except.ok EnvelopeHandler.write_handler
  else if name ∈ NONBLOCKING_METHODS then Except.ok EnvelopeHandler.nonblocking_handler
  else Except.error "Unsupported method"

/-! ## The checked claims -/

/-- C1: in every leaf index state reachable by a finite sequence of
`index_*` calls (with fresh names) and `del_docids` calls (with live
docids), simultaneously: for every term `t` with (non-empty) postings, a
pair `(d, f)` is in `postings[t]` iff `(t, f)` is in `vectors[d]` (and
vice versa over all live `d`); `df[t]` equals the number of distinct
docids in `postings[t]`; `doc_len_map[d]` holds the squared L2 norm
`Σ f²` of `vectors[d]` (the source stores its `math.sqrt`); and the
name↔docid maps are mutually inverse with common size equal to `N`. -/
theorem c1_leaf_invariants {s : MapSimIndex} (h : Reachable s) :
    (∀ t pl, alookup s.term_index t = some pl →
      pl ≠ [] ∧
      (∀ d f, (d, f) ∈ pl ↔ ∃ tv, alookup s.doc_vectors d = some tv ∧ (t, f) ∈ tv) ∧
      alookup s.df_map t = some ((((pl.map Prod.fst).dedup).length : Int)))
    ∧ (∀ d tv, alookup s.doc_vectors d = some tv → ∀ t f, (t, f) ∈ tv →
        ∃ pl, alookup s.term_index t = some pl ∧ (d, f) ∈ pl)
    ∧ (∀ d tv, alookup s.doc_vectors d = some tv →
        alookup s.doc_len_map d = some (l2_norm_sq tv))
    ∧ (∀ n d, alookup s.name_to_docid_map n = some d ↔
        alookup s.docid_to_name_map d = some n)
    ∧ s.name_to_docid_map.length = s.docid_to_name_map.length
    ∧ s.N = (s.docid_to_name_map.length : Int) := by
  have inv := reachable_leaf_inv h
  refine ⟨?_, inv.ti_complete, inv.dv_len, inv.maps_inverse, inv.nd_len, inv.N_len⟩
  intro t pl hpl
  obtain ⟨hne, hnd, hsnd⟩ := inv.ti_sound t pl hpl
  refine ⟨hne, ?_, ?_⟩
  · intro d f
    constructor
    · exact hsnd d f
    · rintro ⟨tv, hdv, htf⟩
      obtain ⟨pl', hpl', hmem⟩ := inv.ti_complete d tv hdv t f htf
      rw [hpl] at hpl'
      cases Option.some.inj hpl'
      exact hmem
  · have hdedup : (pl.map Prod.fst).dedup = pl.map Prod.fst := List.Nodup.dedup hnd
    rw [hdedup, List.length_map]
    exact inv.df_live t pl hpl

/-- C1 witness: the invariant evaluated on the concrete reachable state
obtained by indexing `doc1 = "w w x"` into a fresh index. -/
theorem c1_witness :
    alookup ((init_index true []).index_doc "doc1" ["w w x"]).df_map "w"
      = some (((([((0 : Nat), (2 : Nat))].map Prod.fst).dedup).length : Int)) := by
  have h := (c1_leaf_invariants
    (Reachable.index_doc "doc1" ["w w x"] (Reachable.init true []) (by decide))).1
    "w" [(0, 2)] (by decide)
  exact h.2.2

/-- C3: the claim says deleting a docid that is not live completes
without error and leaves the state unchanged. The code instead raises
`KeyError` at its very first step, `self._doc_vectors[docid]`
(`map_sim_index.py` line 163), although its own `_del_helper` (with the
commented-out "Unkown docid" message) was written to tolerate exactly
this; evaluated here on an empty index and on an index holding only
docid 0. -/
theorem c3_del_unknown_docid_raises :
    (init_index true []).del_docid? 0
      = Except.error "KeyError: doc_vectors[docid]"
    ∧ ((init_index true []).index_doc "docA" ["tok"]).del_docid? 5
      = Except.error "KeyError: doc_vectors[docid]" :=
  ⟨rfl, rfl⟩

/-- C4 counterexample: the state reached by indexing a document whose
vector is `{tok: 1}` and then deleting it. -/
def c4_state : MapSimIndex :=
  match ((init_index true []).index_doc "docA" ["tok"]).del_docid? 0 with
  | Except.ok s => s
  | Except.error _ => init_index true []

/-- C4 counterexample: a reachable state in which the term `tok` is
present in the (effective, local) df map with value `0`, so
`get_doc_freq` reports `0` — falsifying "no term present in the df map
ever reports 0 or less" (and `log(N/df)` would divide by zero). -/
theorem c4_counterexample :
    ((init_index true []).index_doc "docA" ["tok"]).del_docid? 0 = Except.ok c4_state
    ∧ Reachable c4_state
    ∧ alookup c4_state.df_map "tok" = some 0
    ∧ c4_state.global_df_map = none
    ∧ c4_state.get_doc_freq "tok" = 0 := by
  refine ⟨rfl, ?_, by decide, rfl, by decide⟩
  exact Reachable.del_docid 0
    (Reachable.index_doc "docA" ["tok"] (Reachable.init true []) (by decide)) rfl

/-- C4 as amended: in every reachable leaf state, a term absent from the
effective df map reports `1`, and every term with non-empty postings
reports at least `1`; but a term whose documents have all been deleted
lingers in the df map with value `0` and reports `0` (see
`c4_counterexample`). -/
theorem c4_df_accessor_amended {s : MapSimIndex} (h : Reachable s) :
    (∀ t, alookup s.df_map t = none → s.global_df_map = none → s.get_doc_freq t = 1)
    ∧ (∀ t pl, alookup s.term_index t = some pl → 1 ≤ s.get_doc_freq t) := by
  have inv := reachable_leaf_inv h
  constructor
  · intro t hnone hg
    rw [MapSimIndex.get_doc_freq, hg]
    simp [hnone]
  · intro t pl hpl
    obtain ⟨hne, _, _⟩ := inv.ti_sound t pl hpl
    have hdf := inv.df_live t pl hpl
    rw [MapSimIndex.get_doc_freq, inv.global_df_none]
    simp only [hdf, Option.getD_some]
    have : 0 < pl.length := List.length_pos.mpr hne
    omega

/-- C4 witness: the amended accessor bound evaluated on a concrete
reachable state. -/
theorem c4_witness :
    1 ≤ ((init_index true []).index_doc "docA" ["tok"]).get_doc_freq "tok" :=
  (c4_df_accessor_amended
    (Reachable.index_doc "docA" ["tok"] (Reachable.init true []) (by decide))).2
    "tok" [(0, 1)] (by decide)

/-- C5: `term_vec` drops a token iff its raw (pre-case-folding) form is
in the stoplist, and lowercases only the survivors before counting: the
count of a term `t` equals the number of raw tokens that escape the
stoplist and case-fold to `t`. In particular, with `lowercase` on and a
stoplist containing only the lowercase form, an uppercase occurrence
survives and is counted under its lowercased form. -/
theorem c5_stoplist_before_casefold :
    (∀ (input stoplist : List String) (lowercase : Bool) (t : String),
      (alookup (term_vec input stoplist lowercase) t).getD 0
        = (kept_tokens stoplist lowercase input).count t)
    ∧ term_vec ["HELLO hello"] ["hello"] true = [("hello", 1)] := by
  constructor
  · intro input stoplist lowercase t
    exact term_vec_count input stoplist lowercase t
  · decide

/-- C6: for every query vector and postings lists whose terms all occur
in the query vector with frequency ≥ 1 (the assert precondition), the
simple-count scorer succeeds and assigns each document the sum of `freq`
over all pairs `(d, freq)` in any of the given postings lists,
independently of the query-term frequencies, returning the (docid,
score) pairs sorted descending by score. -/
theorem c6_simple_count_scorer (query_vec : List (String × Nat))
    (postings_lists : List (String × List (Nat × Nat)))
    (hq : ∀ tp ∈ postings_lists, ∃ q, alookup query_vec tp.1 = some q ∧ 1 ≤ q) :
    ∃ r, SimpleCountQueryScorer.score_docs query_vec postings_lists = some r
      ∧ (∀ p ∈ r, p.2 = SimpleCountQueryScorer.total_freq postings_lists p.1)
      ∧ (∀ d, d ∈ r.map Prod.fst
          ↔ d ∈ ((postings_lists.map Prod.snd).flatten).map Prod.fst)
      ∧ r.Sorted (fun a b => b.2 ≤ a.2)
      ∧ (∀ query_vec₂,
          (∀ tp ∈ postings_lists, ∃ q, alookup query_vec₂ tp.1 = some q ∧ 1 ≤ q) →
          SimpleCountQueryScorer.score_docs query_vec₂ postings_lists
            = SimpleCountQueryScorer.score_docs query_vec postings_lists) := by
  have hfold := SimpleCountQueryScorer.foldlM_acc_step_eq query_vec postings_lists hq []
  have hscore : SimpleCountQueryScorer.score_docs query_vec postings_lists
      = some (sort_by_score_desc (((postings_lists.map Prod.snd).flatten).foldl
          SimpleCountQueryScorer.add_hit [])) := by
    rw [SimpleCountQueryScorer.score_docs, hfold]
  refine ⟨sort_by_score_desc (((postings_lists.map Prod.snd).flatten).foldl
    SimpleCountQueryScorer.add_hit []), hscore, ?_, ?_,
    sort_by_score_desc_sorted _, ?_⟩
  · intro p hp
    have hmem : p ∈ ((postings_lists.map Prod.snd).flatten).foldl
        SimpleCountQueryScorer.add_hit [] :=
      (sort_by_score_desc_perm _).mem_iff.mp hp
    have hnd : (akeys (((postings_lists.map Prod.snd).flatten).foldl
        SimpleCountQueryScorer.add_hit [])).Nodup :=
      SimpleCountQueryScorer.nodup_akeys_fold_add_hit _ _ (by simp)
    have hl : alookup (((postings_lists.map Prod.snd).flatten).foldl
        SimpleCountQueryScorer.add_hit []) p.1 = some p.2 :=
      alookup_eq_some_of_mem hnd hmem
    have hgd : (alookup (((postings_lists.map Prod.snd).flatten).foldl
        SimpleCountQueryScorer.add_hit []) p.1).getD 0 = p.2 := by
      rw [hl]
      rfl
    rw [← hgd, SimpleCountQueryScorer.fold_add_hit_getD]
    simp [SimpleCountQueryScorer.total_freq]
  · intro d
    constructor
    · intro hd
      have h1 := ((sort_by_score_desc_perm _).map Prod.fst).mem_iff.mp hd
      have h2 := (SimpleCountQueryScorer.mem_akeys_fold_add_hit d _ []).mp h1
      simpa using h2
    · intro hd
      apply ((sort_by_score_desc_perm _).map Prod.fst).mem_iff.mpr
      exact (SimpleCountQueryScorer.mem_akeys_fold_add_hit d _ []).mpr (Or.inr hd)
  · intro qv2 hq2
    have hfold2 := SimpleCountQueryScorer.foldlM_acc_step_eq qv2 postings_lists hq2 []
    rw [SimpleCountQueryScorer.score_docs, hfold2, hscore]

/-- C6 witness: the scorer evaluated on a concrete query and postings
list. -/
theorem c6_witness :
    SimpleCountQueryScorer.score_docs [("a", 1), ("b", 3)]
      [("a", [(0, 2), (1, 1)]), ("b", [(2, 5)])]
      = some [(2, 5), (0, 2), (1, 1)]
    ∧ (∀ p ∈ [((2 : Nat), (5 : Nat)), (0, 2), (1, 1)],
        p.2 = SimpleCountQueryScorer.total_freq
          [("a", [(0, 2), (1, 1)]), ("b", [(2, 5)])] p.1) := by
  obtain ⟨r, hr, hscores, _, _, _⟩ :=
    c6_simple_count_scorer [("a", 1), ("b", 3)]
      [("a", [(0, 2), (1, 1)]), ("b", [(2, 5)])] (by decide)
  have hval : SimpleCountQueryScorer.score_docs [("a", 1), ("b", 3)]
      [("a", [(0, 2), (1, 1)]), ("b", [(2, 5)])]
      = some [(2, 5), (0, 2), (1, 1)] := rfl
  have hre : r = [(2, 5), (0, 2), (1, 1)] := Option.some.inj (hr.symm.trans hval)
  refine ⟨hval, ?_⟩
  rw [← hre]
  exact hscores

/-- C7 counterexample: a tf·idf input with `N = 1` in which the matching
document `0` reports doclen `0`. The claim says the scorer skips the
document rather than raising; the code divides unconditionally, so the
call raises `ZeroDivisionError` (embedded as `none`) instead of
returning a hit list. -/
theorem c7_counterexample :
    TFIDFQueryScorer.score_docs (fun n => (n : ℚ)) (fun _ _ => 1)
      [("a", 1)] [("a", [(0, 1)])] 1 (fun _ => 1) (fun _ => 0) = none := by
  rfl

/-- C7 as amended: the tf·idf scorer does *not* skip matching documents
with doclen 0 — `doc_hit_map[docid] = weight / doc_len` divides
unconditionally, so with `N ≠ 0` any input in which some matching
document reports doclen 0 raises `ZeroDivisionError` (embedded: the call
returns `none`) rather than producing a result. -/
theorem c7_tfidf_zero_doclen_amended (tf_weight : Nat → ℚ)
    (idf_weight : Int → Int → ℚ) (query_vec : List (String × Nat))
    (postings_lists : List (String × List (Nat × Nat))) (N : Int)
    (get_doc_freq : String → Int) (get_doc_len : Nat → ℚ) (d : Nat)
    (hN : N ≠ 0)
    (hmatch : ∃ tp ∈ postings_lists, ∃ f, (d, f) ∈ tp.2)
    (hlen : get_doc_len d = 0) :
    TFIDFQueryScorer.score_docs tf_weight idf_weight query_vec postings_lists N
      get_doc_freq get_doc_len = none := by
  rw [TFIDFQueryScorer.score_docs, if_neg hN]
  cases hacc : postings_lists.foldlM
      (TFIDFQueryScorer.acc_step tf_weight idf_weight query_vec N get_doc_freq) [] with
  | none => rfl
  | some hits =>
    obtain ⟨_, hcover⟩ := TFIDFQueryScorer.foldlM_acc_step_covers tf_weight idf_weight
      query_vec N get_doc_freq postings_lists [] hits hacc
    obtain ⟨tp, htp, f, hf⟩ := hmatch
    have hd : d ∈ akeys hits := hcover tp htp (d, f) hf
    obtain ⟨e, he, hefst⟩ := List.mem_map.mp hd
    have hnorm : TFIDFQueryScorer.normalize_step get_doc_len e = none := by
      rw [TFIDFQueryScorer.normalize_step, hefst, hlen]
      simp
    have hmapm : hits.mapM (TFIDFQueryScorer.normalize_step get_doc_len) = none :=
      mapM_eq_none_of_mem _ hits e he hnorm
    simp only [hmapm]

/-- C7 witness: the amended statement applied at the counterexample
input. -/
theorem c7_witness :
    TFIDFQueryScorer.score_docs (fun n => (n : ℚ)) (fun _ _ => 1)
      [("a", 1)] [("a", [(0, 1)])] 1 (fun _ => 1) (fun _ => (0 : ℚ)) = none :=
  c7_tfidf_zero_doclen_amended (fun n => (n : ℚ)) (fun _ _ => 1) [("a", 1)]
    [("a", [(0, 1)])] 1 (fun _ => 1) (fun _ => 0) 0 (by decide)
    ⟨("a", [(0, 1)]), by decide, 1, by decide⟩ rfl

/-! ### Stale entries survive `update_node_stats` -/

theorem mem_aset_of_mem_ne {κ ν : Type _} [DecidableEq κ] {m : List (κ × ν)}
    {p : κ × ν} (k : κ) (v : ν) (hp : p ∈ m) (hne : p.1 ≠ k) : p ∈ aset m k v := by
  induction m with
  | nil => simp at hp
  | cons q qs ih =>
    by_cases hq : q.1 = k
    · rw [show aset (q :: qs) k v = (k, v) :: qs by simp [aset, hq]]
      rcases List.mem_cons.mp hp with h | h
      · exact absurd ((congrArg Prod.fst h).trans hq) hne
      · exact List.mem_cons_of_mem _ h
    · rw [show aset (q :: qs) k v = q :: aset qs k v by simp [aset, hq]]
      rcases List.mem_cons.mp hp with h | h
      · exact h ▸ List.mem_cons_self _ _
      · exact List.mem_cons_of_mem _ (ih h)

theorem push_preserves_nd (shard_id : Nat) :
    ∀ (smap : List (String × Nat)) (nd dn : List (String × String))
      (p : String × String), p ∈ nd → p.1 ∉ akeys smap →
      p ∈ (SimIndexCollection.push_shard_map nd dn shard_id smap).1 := by
  intro smap
  induction smap with
  | nil => intro nd dn p hp _; exact hp
  | cons q smap ih =>
    intro nd dn p hp hkey
    rw [akeys_cons] at hkey
    have hkq : p.1 ≠ q.1 := fun h => hkey (h ▸ List.mem_cons_self _ _)
    have hrest : p.1 ∉ akeys smap := fun h => hkey (List.mem_cons_of_mem _ h)
    exact ih _ _ p (mem_aset_of_mem_ne _ _ hp hkq) hrest

theorem push_preserves_dn (shard_id : Nat) :
    ∀ (smap : List (String × Nat)) (nd dn : List (String × String))
      (p : String × String), p ∈ dn →
      (∀ q ∈ smap, p.1 ≠ SimIndexCollection.make_node_docid shard_id (toString q.2)) →
      p ∈ (SimIndexCollection.push_shard_map nd dn shard_id smap).2 := by
  intro smap
  induction smap with
  | nil => intro nd dn p hp _; exact hp
  | cons q smap ih =>
    intro nd dn p hp hkey
    exact ih _ _ p
      (mem_aset_of_mem_ne _ _ hp (hkey q (List.mem_cons_self _ _)))
      (fun q' h' => hkey q' (List.mem_cons_of_mem _ h'))

theorem foldl_push_preserves_nd :
    ∀ (l : List (Nat × MapSimIndex)) (nd dn : List (String × String))
      (p : String × String), p ∈ nd →
      (∀ is ∈ l, p.1 ∉ akeys is.2.name_to_docid_map) →
      p ∈ (l.foldl (fun acc is =>
        SimIndexCollection.push_shard_map acc.1 acc.2 is.1 is.2.name_to_docid_map)
        (nd, dn)).1 := by
  intro l
  induction l with
  | nil => intro nd dn p hp _; exact hp
  | cons is l ih =>
    intro nd dn p hp hkey
    rw [List.foldl_cons]
    exact ih _ _ p
      (push_preserves_nd is.1 is.2.name_to_docid_map nd dn p hp
        (hkey is (List.mem_cons_self _ _)))
      (fun is' h' => hkey is' (List.mem_cons_of_mem _ h'))

theorem foldl_push_preserves_dn :
    ∀ (l : List (Nat × MapSimIndex)) (nd dn : List (String × String))
      (p : String × String), p ∈ dn →
      (∀ is ∈ l, ∀ q ∈ is.2.name_to_docid_map,
        p.1 ≠ SimIndexCollection.make_node_docid is.1 (toString q.2)) →
      p ∈ (l.foldl (fun acc is =>
        SimIndexCollection.push_shard_map acc.1 acc.2 is.1 is.2.name_to_docid_map)
        (nd, dn)).2 := by
  intro l
  induction l with
  | nil => intro nd dn p hp _; exact hp
  | cons is l ih =>
    intro nd dn p hp hkey
    rw [List.foldl_cons]
    exact ih _ _ p
      (push_preserves_dn is.1 is.2.name_to_docid_map nd dn p hp
        (hkey is (List.mem_cons_self _ _)))
      (fun is' h' => hkey is' (List.mem_cons_of_mem _ h'))

/-- C2 counterexample scenario: a root collection over one shard
(the salted hash is irrelevant modulo one shard), one indexed document,
then its deletion. -/
def c2_coll0 : SimIndexCollection :=
  mk_collection (fun _ => 0) [init_index true []] true

def c2_coll1 : SimIndexCollection :=
  match SimIndexCollection.index_string_buffers [("docA", ["tok"])] c2_coll0 with
  | Except.ok c => c
  | Except.error _ => c2_coll0

def c2_coll2 : SimIndexCollection :=
  match SimIndexCollection.del_docids ["0-0"] c2_coll1 with
  | Except.ok c => c
  | Except.error _ => c2_coll1

/-- C2 counterexample: after the `del_docids` write completes, the
collection's aggregated `N` is `0`, yet the deleted document still
appears in both the name→node-docid and node-docid→name maps, whose size
therefore exceeds `N` — falsifying "the maps contain exactly the
currently live documents / their size equals N". -/
theorem c2_counterexample :
    SimIndexCollection.index_string_buffers [("docA", ["tok"])] c2_coll0
      = Except.ok c2_coll1
    ∧ SimIndexCollection.del_docids ["0-0"] c2_coll1 = Except.ok c2_coll2
    ∧ c2_coll2.N = 0
    ∧ alookup c2_coll2.name_to_docid_map "docA" = some "0-0"
    ∧ alookup c2_coll2.docid_to_name_map "0-0" = some "docA"
    ∧ c2_coll2.name_to_docid_map.length = 1
    ∧ c2_coll2.docid_to_name_map.length = 1 := by
  refine ⟨rfl, rfl, by decide, by decide, by decide, by decide, by decide⟩

/-- C2 as amended: the final reconciliation of every collection write
(`update_node_stats`) rebuilds `N` and the df map from the shards by
replacement, and pushes every live shard document into the
name ↔ node-docid maps under the compound encoding — but those two maps
are updated by in-place assignment without being cleared, so an entry
whose key is not overwritten (e.g. one for a deleted document) survives,
and the map sizes can exceed `N`. -/
theorem c2_update_node_stats_amended (c : SimIndexCollection) :
    (c.update_node_stats).N = (c.shards.map MapSimIndex.get_local_N).sum
    ∧ (c.update_node_stats).df_map
        = c.shards.foldl (fun tgt sh => SimIndexCollection.merge_df_map tgt sh.df_map) []
    ∧ (∀ p ∈ c.name_to_docid_map,
        (∀ is ∈ c.shards.enum, p.1 ∉ akeys is.2.name_to_docid_map) →
        p ∈ (c.update_node_stats).name_to_docid_map)
    ∧ (∀ p ∈ c.docid_to_name_map,
        (∀ is ∈ c.shards.enum, ∀ q ∈ is.2.name_to_docid_map,
          p.1 ≠ SimIndexCollection.make_node_docid is.1 (toString q.2)) →
        p ∈ (c.update_node_stats).docid_to_name_map) := by
  refine ⟨rfl, rfl, ?_, ?_⟩
  · intro p hp hkey
    exact foldl_push_preserves_nd c.shards.enum _ _ p hp hkey
  · intro p hp hkey
    exact foldl_push_preserves_dn c.shards.enum _ _ p hp hkey

/-- C2 witness scenario: a collection whose maps hold a ghost entry for
a document no shard knows about. -/
def c2w_coll : SimIndexCollection where
  shards := [init_index true []]
  default_hash := fun _ => 0
  _shard_func := none
  name_to_docid_map := [("ghost", "0-9")]
  docid_to_name_map := [("0-9", "ghost")]
  df_map := []
  N := 5
  dirty := false
  root := true

/-- C2 witness: the amended statement applied at `c2w_coll` — `N` is
replaced by the shard sum `0`, while the ghost entries survive in both
maps. -/
theorem c2_witness :
    (c2w_coll.update_node_stats).N = 0
    ∧ ("ghost", "0-9") ∈ (c2w_coll.update_node_stats).name_to_docid_map
    ∧ ("0-9", "ghost") ∈ (c2w_coll.update_node_stats).docid_to_name_map := by
  obtain ⟨hN, _, hnd, hdn⟩ := c2_update_node_stats_amended c2w_coll
  refine ⟨hN.trans (by decide), ?_, ?_⟩
  · exact hnd ("ghost", "0-9") (by decide) (by decide)
  · exact hdn ("0-9", "ghost") (by decide) (by decide)

/-- C8: on the flag/trace model, one decorated `index_files` call from a
clean (`dirty = false`) state — whose body internally calls the
decorated `index_string_buffers` — appends all the shard updates and
then exactly one `update_node_stats`, at the outermost boundary; the
flag ends cleared. -/
theorem c8_update_trigger_once (groups : List Nat) (tr : List WriteEvent) :
    index_files_traced groups (false, tr)
      = (false, tr ++ (groups.map WriteEvent.shard_update ++ [WriteEvent.update_stats]))
    ∧ (groups.map WriteEvent.shard_update
        ++ [WriteEvent.update_stats]).count WriteEvent.update_stats = 1
    ∧ (∀ ev ∈ groups.map WriteEvent.shard_update, ev ≠ WriteEvent.update_stats) := by
  refine ⟨?_, ?_, ?_⟩
  · show (false, (tr ++ groups.map WriteEvent.shard_update) ++ [WriteEvent.update_stats])
      = _
    rw [List.append_assoc]
  · have h0 : (groups.map WriteEvent.shard_update).count WriteEvent.update_stats = 0 := by
      rw [List.count_eq_zero]
      intro hmem
      obtain ⟨i, _, hi⟩ := List.mem_map.mp hmem
      exact WriteEvent.noConfusion hi
    rw [List.count_append, h0]
    rfl
  · intro ev hmem
    obtain ⟨i, _, hi⟩ := List.mem_map.mp hmem
    rw [← hi]
    intro hcon
    exact WriteEvent.noConfusion hcon

/-- C9 scenario: a root collection over two empty shards whose salted
hash routes every name to shard 0; a caller overrides the shard function
with the constant-1 function. -/
def c9_coll0 : SimIndexCollection :=
  mk_collection (fun _ => 0) [init_index true [], init_index true []] true

def c9_override : String → Nat := fun _ => 1

def c9_coll1 : SimIndexCollection := c9_coll0.set_shard_func c9_override

def c9_coll2 : SimIndexCollection :=
  match SimIndexCollection.index_string_buffers [("docA", ["tok"])] c9_coll1 with
  | Except.ok c => c
  | Except.error _ => c9_coll1

/-- C9: `set_shard_func` writes the attribute `_shard_func`, but the
routing path reads the attribute `shard_func` (bound to
`default_shard_func` in `__init__`), so the override is silently
ignored: after overriding with the constant-1 function, indexing `docA`
still sends it to shard 0 (the default function's choice), not to
shard 1 = f(docA) as the claim (and the method's evident purpose)
require. -/
theorem c9_set_shard_func_ignored :
    c9_override "docA" = 1
    ∧ c9_coll1._shard_func.isSome = true
    ∧ c9_coll1.shard_func "docA" = 0
    ∧ SimIndexCollection.index_string_buffers [("docA", ["tok"])] c9_coll1
        = Except.ok c9_coll2
    ∧ c9_coll2.shards.map MapSimIndex.get_local_N = [1, 0] := by
  refine ⟨rfl, rfl, by decide, rfl, by decide⟩

/-- C10: any method name outside the three envelope sets — including
`index_filenames`, the memory variant's `save`/`load`, and the
collection-only `set_shard_func` / `add_shards`, even when the wrapped
index provides them — raises the unsupported-method error instead of
delegating, and only names in the three sets ever obtain a handler. -/
theorem c10_envelope_dispatch :
    (∀ (wrapped_attrs : List String) (name : String), name ∈ wrapped_attrs →
      name ∉ READ_METHODS → name ∉ WRITE_METHODS → name ∉ NONBLOCKING_METHODS →
      getattr_env wrapped_attrs name = Except.error "Unsupported method")
    ∧ (∀ (wrapped_attrs : List String) (name : String) (h : EnvelopeHandler),
        getattr_env wrapped_attrs name = Except.ok h →
        name ∈ READ_METHODS ∨ name ∈ WRITE_METHODS ∨ name ∈ NONBLOCKING_METHODS)
    ∧ (∀ name ∈ ["index_filenames", "save", "load", "set_shard_func", "add_shards"],
        getattr_env ["index_filenames", "save", "load", "set_shard_func", "add_shards"]
          name = Except.error "Unsupported method") := by
  refine ⟨?_, ?_, ?_⟩
  · intro wrapped_attrs name hw hr hwr hnb
    rw [getattr_env, if_neg (fun h => h hw), if_neg hr, if_neg hwr, if_neg hnb]
  · intro wrapped_attrs name h hok
    rw [getattr_env] at hok
    by_cases hw : name ∉ wrapped_attrs
    · rw [if_pos hw] at hok
      exact Except.noConfusion hok
    · rw [if_neg hw] at hok
      by_cases hr : name ∈ READ_METHODS
      · exact Or.inl hr
      · rw [if_neg hr] at hok
        by_cases hwr : name ∈ WRITE_METHODS
        · exact Or.inr (Or.inl hwr)
        · rw [if_neg hwr] at hok
          by_cases hnb : name ∈ NONBLOCKING_METHODS
          · exact Or.inr (Or.inr hnb)
          · rw [if_neg hnb] at hok
            exact Except.noConfusion hok
  · intro name hmem
    fin_cases hmem <;> rfl

/-- C10 witness: `index_filenames` — provided by the wrapped index — is
rejected with the unsupported-method error. -/
theorem c10_witness :
    getattr_env ["index_filenames"] "index_filenames"
      = Except.error "Unsupported method" :=
  c10_envelope_dispatch.1 ["index_filenames"] "index_filenames"
    (by decide) (by decide) (by decide) (by decide)

end Pysimsearch
